import Mathlib

/-!
Shallow embedding of the parquet columnar encode/decode engine generated by
`src/cmd/parquetgen/main.go` (the Go code inside the template string `tpl`),
together with the metadata collaborator surface of the `parquet` package,
which is part of this repository but not under `src/` and is therefore
modelled from the spec where noted.

Bytes are natural numbers kept below 256 by the encoders; machine integers
are `Nat`/`Int` with explicit reductions modulo `2^w`.
-/

namespace ParquetGen

/-- A byte of the output stream, as a natural number (< 256 by construction). -/
abbrev Byte := Nat

/-- Little-endian encoding of `v` into `w` bytes (Go `binary.Write` with
`binary.LittleEndian` at width `w`; values wrap modulo `256^w`). -/
def leBytes : Nat → Nat → List Byte
  | 0, _ => []
  | w + 1, v => v % 256 :: leBytes w (v / 256)

/-- Little-endian value of a byte list (Go `binary.Read` at the list's width). -/
def leVal : List Byte → Nat
  | [] => 0
  | b :: bs => b + 256 * leVal bs

theorem leBytes_length (w v : Nat) : (leBytes w v).length = w := by
  induction w generalizing v with
  | zero => rfl
  | succ w ih => simp [leBytes, ih]

theorem leVal_leBytes (w v : Nat) : leVal (leBytes w v) = v % 256 ^ w := by
  induction w generalizing v with
  | zero => simp [leBytes, leVal]; omega
  | succ w ih =>
    have h : v % 256 ^ (w + 1) = v % 256 + 256 * (v / 256 % 256 ^ w) := by
      rw [pow_succ, mul_comm (256 ^ w) 256, Nat.mod_mul]
    simp [leBytes, leVal, ih, h]

theorem leVal_leBytes_of_lt {w v : Nat} (h : v < 256 ^ w) :
    leVal (leBytes w v) = v := by
  rw [leVal_leBytes, Nat.mod_eq_of_lt h]

theorem leBytes_lt (w v : Nat) : ∀ b ∈ leBytes w v, b < 256 := by
  induction w generalizing v with
  | zero => simp [leBytes]
  | succ w ih =>
    intro b hb
    simp only [leBytes, List.mem_cons] at hb
    rcases hb with h | h
    · subst h; exact Nat.mod_lt _ (by omega)
    · exact ih _ b h

/-- Read exactly `n` bytes from an in-memory stream (Go `r.Read` into an
`n`-byte buffer against a `bytes.Buffer`/`bytes.Reader`); fails when fewer
than `n` bytes remain. -/
def readN (n : Nat) (bs : List Byte) : Option (List Byte × List Byte) :=
  if n ≤ bs.length then some (bs.take n, bs.drop n) else none

theorem readN_append {a : List Byte} (rest : List Byte) {n : Nat}
    (h : a.length = n) : readN n (a ++ rest) = some (a, rest) := by
  subst h
  simp [readN]

/-! ## Physical types and values -/

/-- Physical column types of the generated field variants.  The template has
one required and one optional field type for each of these; `float64` does
not occur in the source. -/
inductive PType
  | pbool
  | pint32
  | puint32
  | pint64
  | puint64
  | pfloat32
  | pstring
deriving DecidableEq

/-- A physical value.  Floats are carried as raw little-endian bit patterns
(the pipeline moves them bit-exactly and never computes with them); strings
are their UTF-8 byte sequences. -/
inductive PValue
  | vbool (b : Bool)
  | vint32 (v : Int)
  | vuint32 (v : Nat)
  | vint64 (v : Int)
  | vuint64 (v : Nat)
  | vfloat32 (bits : Nat)
  | vstring (s : List Byte)
deriving DecidableEq

/-- Two's-complement bit pattern of a signed integer at width `w` bits
(what `binary.Write` emits for `int32`/`int64`). -/
def toUnsigned (w : Nat) (v : Int) : Nat := (v % ((2 : Int) ^ w)).toNat

/-- Signed reading of a `w`-bit pattern (what `binary.Read` yields for
`int32`/`int64`). -/
def fromSigned (w : Nat) (n : Nat) : Int :=
  if n < 2 ^ (w - 1) then (n : Int) else (n : Int) - 2 ^ w

theorem fromSigned_toUnsigned {w : Nat} (hw : 1 ≤ w) {v : Int}
    (hl : -(2 ^ (w - 1)) ≤ v) (hu : v < 2 ^ (w - 1)) :
    fromSigned w (toUnsigned w v) = v := by
  have hpow : (2 : Int) ^ w = 2 ^ (w - 1) * 2 := by
    rw [← pow_succ]
    congr 1
    omega
  have hc1 : ((2 ^ (w - 1) : Nat) : Int) = (2 : Int) ^ (w - 1) := by push_cast; ring
  have h0 : (0 : Int) < 2 ^ w := by positivity
  rcases le_or_lt 0 v with h | h
  · have hv : v % ((2 : Int) ^ w) = v := Int.emod_eq_of_lt h (by omega)
    unfold fromSigned toUnsigned
    rw [hv]
    split <;> omega
  · have hsum : (v + (2 : Int) ^ w) % ((2 : Int) ^ w) = v % 2 ^ w := by
      have h := Int.add_mul_emod_self_left (a := v) (b := (2 : Int) ^ w) (c := 1)
      rw [mul_one] at h
      exact h
    have hv : v % ((2 : Int) ^ w) = v + 2 ^ w := by
      rw [← hsum]
      exact Int.emod_eq_of_lt (by omega) (by omega)
    unfold fromSigned toUnsigned
    rw [hv]
    split <;> omega

/-- Byte encoding of one value, as each required/optional `Write` method
produces it per element (`binary.Write` little-endian; strings are an
`int32` length followed by the raw bytes).  Booleans are bit-packed at the
column level instead (see `boolPack`) and contribute nothing here. -/
def encodeVal : PValue → List Byte
  | .vbool _ => []
  | .vint32 v => leBytes 4 (toUnsigned 32 v)
  | .vuint32 v => leBytes 4 v
  | .vint64 v => leBytes 8 (toUnsigned 64 v)
  | .vuint64 v => leBytes 8 v
  | .vfloat32 bits => leBytes 4 bits
  | .vstring s => leBytes 4 s.length ++ s

/-- `BoolField.Write` / `BoolOptionalField.Write`: bit-pack `vals` LSB-first
into `(len + 7) / 8` bytes, value `i` at bit `i % 8` of byte `i / 8`. -/
def boolPack (vals : List Bool) : List Byte :=
  (List.range vals.length).foldl
    (fun buf i =>
      if vals.getD i false then
        buf.set (i / 8) (buf.getD (i / 8) 0 ||| (1 <<< (i % 8)))
      else buf)
    (List.replicate ((vals.length + 7) / 8) 0)

/-- Extract the boolean payload of a `PValue` (the bool field buffers hold
`[]bool`; mismatched constructors cannot occur for well-typed columns). -/
def asBool : PValue → Bool
  | .vbool b => b
  | _ => false

/-- The uncompressed value payload a column's `Write` method passes to
`doWrite`: little-endian numerics and length-prefixed strings are
concatenated per value; booleans are bit-packed. -/
def encodeColumn (t : PType) (vals : List PValue) : List Byte :=
  match t with
  | .pbool => boolPack (vals.map asBool)
  | _ => vals.flatMap encodeVal

/-- Modelled from the spec: `parquet.GetBools` (the boolean decoder lives in
the `parquet` package, which is part of this repository but not under
`src/`).  Spec §4.1: value `i` occupies bit `i % 8` of byte `i / 8`,
LSB-first; the decoder unpacks `n` bits from the byte stream it is handed,
failing on a short stream. -/
def getBools (n : Nat) (bs : List Byte) : Option (List Bool) :=
  if (n + 7) / 8 ≤ bs.length then
    some ((List.range n).map fun i => (bs.getD (i / 8) 0).testBit (i % 8))
  else none

/-- Decode `n` fixed-width values of `w` bytes each from the head of a
payload (`binary.Read` into a slice of `n` machine integers: consumes
exactly `n * w` bytes of the stream, fails when the stream is shorter). -/
def decodeFixed (w : Nat) (mk : Nat → PValue) : Nat → List Byte → Option (List PValue)
  | 0, _ => some []
  | n + 1, bs =>
    match readN w bs with
    | none => none
    | some (chunk, rest) =>
      (decodeFixed w mk n rest).map fun vs => mk (leVal chunk) :: vs

/-- `StringField.Read`: read `n` strings, each an `int32` little-endian
length followed by that many bytes.  A negative length (`binary.Read` of an
`int32` yielding a value ≥ 2^31) would make `make([]byte, x)` panic, which
is modelled as failure. -/
def decodeStrings : Nat → List Byte → Option (List PValue)
  | 0, _ => some []
  | n + 1, bs =>
    match readN 4 bs with
    | none => none
    | some (lb, r1) =>
      let L := leVal lb
      if L < 2 ^ 31 then
        match readN L r1 with
        | none => none
        | some (s, r2) => (decodeStrings n r2).map fun vs => .vstring s :: vs
      else none

/-- `StringOptionalField.Read`'s value loop: for `j` below the position's
value count, skip when `defs[start+j] = 0`, otherwise read one
length-prefixed string.  An out-of-range definition-level access (Go slice
index panic) is modelled as failure. -/
def decodeStringsOpt (defs : List Nat) (start : Nat) :
    Nat → List Byte → Option (List PValue)
  | 0, _ => some []
  | n + 1, bs =>
    match defs.get? start with
    | none => none
    | some d =>
      if d = 0 then decodeStringsOpt defs (start + 1) n bs
      else
        match readN 4 bs with
        | none => none
        | some (lb, r1) =>
          let L := leVal lb
          if L < 2 ^ 31 then
            match readN L r1 with
            | none => none
            | some (s, r2) =>
              (decodeStringsOpt defs (start + 1) n r2).map fun vs => .vstring s :: vs
          else none

/-- The value decoding each non-string field's `Read` method applies to the
payload returned by `doRead` (string columns use `decodeStrings` /
`decodeStringsOpt`, which also consume the stream sequentially). -/
def decodeColumn (t : PType) (n : Nat) (bs : List Byte) : Option (List PValue) :=
  match t with
  | .pbool => (getBools n bs).map (List.map .vbool)
  | .pint32 => decodeFixed 4 (fun u => .vint32 (fromSigned 32 u)) n bs
  | .puint32 => decodeFixed 4 .vuint32 n bs
  | .pint64 => decodeFixed 8 (fun u => .vint64 (fromSigned 64 u)) n bs
  | .puint64 => decodeFixed 8 .vuint64 n bs
  | .pfloat32 => decodeFixed 4 .vfloat32 n bs
  | .pstring => decodeStrings n bs

/-! ## Spec-modelled collaborators

The generated code delegates compression to `github.com/golang/snappy`
(third-party) and all format bookkeeping to the `parquet` package, which
belongs to this repository but is not under `src/`.  Those parts are
modelled from the spec (§4.1, §4.3, §6): concrete faithful realizations of
the documented operation surface. -/

/-- Modelled from the spec: `snappy.Encode` (third-party, external).  The
spec treats compression as an opaque, losslessly invertible blob codec
applied to the whole page payload; modelled as a 4-byte length prefix plus
the payload so that compressed and uncompressed sizes differ. -/
def snappyEncode (bs : List Byte) : List Byte := leBytes 4 bs.length ++ bs

/-- Modelled from the spec: `snappy.Decode`, the inverse of `snappyEncode`;
fails on a corrupt block. -/
def snappyDecode (bs : List Byte) : Option (List Byte) :=
  let L := leVal (bs.take 4)
  if 4 ≤ bs.length ∧ (bs.drop 4).length = L then some (bs.drop 4) else none

theorem snappyDecode_encode {bs : List Byte} (h : bs.length < 2 ^ 32) :
    snappyDecode (snappyEncode bs) = some bs := by
  unfold snappyDecode snappyEncode
  have hlen : (leBytes 4 bs.length).length = 4 := leBytes_length 4 _
  rw [List.take_left' hlen, List.drop_left' hlen, leVal_leBytes_of_lt (by norm_num; omega)]
  simp [hlen]

/-- Modelled from the spec: `parquet.WriteLevels` (§4.1, §6), the definition
level encoder of the `parquet` package.  The spec leaves the level codec
opaque but requires the byte length of the stream to be recoverable on
read; modelled as a 4-byte little-endian count followed by one byte per
level. -/
def writeLevels (defs : List Nat) : List Byte := leBytes 4 defs.length ++ defs

/-- Modelled from the spec: `parquet.ReadLevels` (§4.1, §6): parses the
level stream at the head of an uncompressed page and returns the levels
together with the number of bytes consumed. -/
def readLevels (bs : List Byte) : Option (List Nat × Nat) :=
  let L := leVal (bs.take 4)
  if 4 + L ≤ bs.length then some ((bs.drop 4).take L, 4 + L) else none

theorem readLevels_writeLevels {defs : List Nat} (rest : List Byte)
    (h : defs.length < 2 ^ 32) :
    readLevels (writeLevels defs ++ rest) = some (defs, 4 + defs.length) := by
  unfold readLevels writeLevels
  have hlen : (leBytes 4 defs.length).length = 4 := leBytes_length 4 _
  rw [List.append_assoc, List.take_left' hlen, List.drop_left' hlen,
    leVal_leBytes_of_lt (by norm_num; omega)]
  have hle : 4 + defs.length ≤ (leBytes 4 defs.length ++ (defs ++ rest)).length := by
    simp [hlen]
  rw [if_pos hle]
  rw [List.take_left' rfl]

/-! ## Page headers and metadata (spec-modelled collaborator) -/

/-- Column names are byte strings (the last `path_in_schema` segment). -/
abbrev ColName := List Byte

/-- The `(offset, compressed_size, num_values)` triple the metadata yields
per (row group, column); the generated reader uses only `n` (`pos.N`). -/
structure Position where
  offset : Nat
  compressedSize : Nat
  n : Nat
deriving DecidableEq

/-- One column chunk recorded in a footer row group. -/
structure Chunk where
  name : ColName
  pos : Position
deriving DecidableEq

/-- Modelled from the spec: the page header record emitted by
`Metadata.WritePageHeader` and parsed by `Metadata.PageHeader` (an opaque
collaborator record carrying uncompressed size, compressed size and value
count; here three 8-byte little-endian integers). -/
def pageHeaderBytes (u c n : Nat) : List Byte :=
  leBytes 8 u ++ leBytes 8 c ++ leBytes 8 n

/-- Modelled from the spec: `Metadata.PageHeader`, parsing one page header
from the stream and returning (uncompressed size, compressed size, value
count) plus the remaining stream. -/
def parsePageHeader (bs : List Byte) : Option (Nat × Nat × Nat × List Byte) :=
  match readN 8 bs with
  | none => none
  | some (ub, r1) =>
    match readN 8 r1 with
    | none => none
    | some (cb, r2) =>
      match readN 8 r2 with
      | none => none
      | some (nb, r3) => some (leVal ub, leVal cb, leVal nb, r3)

theorem parsePageHeader_bytes {u c n : Nat} (rest : List Byte)
    (hu : u < 2 ^ 64) (hc : c < 2 ^ 64) (hn : n < 2 ^ 64) :
    parsePageHeader (pageHeaderBytes u c n ++ rest) = some (u, c, n, rest) := by
  unfold parsePageHeader pageHeaderBytes
  rw [List.append_assoc, List.append_assoc]
  simp only [readN_append _ (leBytes_length 8 u), readN_append _ (leBytes_length 8 c),
    readN_append _ (leBytes_length 8 n)]
  rw [leVal_leBytes_of_lt (by norm_num; omega),
    leVal_leBytes_of_lt (by norm_num; omega),
    leVal_leBytes_of_lt (by norm_num; omega)]

/-- Merge a page's accounting into the current row group's column list:
the first page of a column appends a chunk, later pages of the same column
accumulate into it (spec §6: `offsets()` yields one `Position` per
(field, row group), whose `num_values` spans all of that column's pages in
the row group — see §4.2 `read_page`). -/
def addChunk (col : ColName) (c n : Nat) : List Chunk → List Chunk
  | [] => [⟨col, ⟨0, c, n⟩⟩]
  | ch :: rest =>
    if ch.name = col then
      ⟨ch.name, ⟨ch.pos.offset, ch.pos.compressedSize + c, ch.pos.n + n⟩⟩ :: rest
    else ch :: addChunk col c n rest

/-- Apply `f` to the last element of a list (the row group currently being
accounted). -/
def updateLast (f : α → α) : List α → List α
  | [] => []
  | [x] => [f x]
  | x :: y :: rest => x :: updateLast f (y :: rest)

/-- Modelled from the spec: the `parquet.Metadata` collaborator state (§6).
`rowGroups` is the footer's row-group/column-chunk index, oldest first,
the last entry being the row group currently accumulating.  `headerLog`
records every `WritePageHeader` call as `(column, value count)`, one entry
per page actually emitted. -/
structure Metadata where
  rowGroups : List (List Chunk)
  headerLog : List (ColName × Nat)

/-- Modelled from the spec: `parquet.New(schema...)` — a metadata with one
empty row group accumulating. -/
def metaNew : Metadata := ⟨[[]], []⟩

/-- Modelled from the spec: `Metadata.StartRowGroup` — begin accounting a
fresh row group. -/
def startRowGroup (m : Metadata) : Metadata :=
  { m with rowGroups := m.rowGroups ++ [[]] }

/-- Modelled from the spec: `Metadata.WritePageHeader` — write the header
record for one page to the output and account the page under its column in
the current row group.  Returns the updated metadata and the header bytes. -/
def writePageHeader (m : Metadata) (col : ColName) (u c n : Nat) :
    Metadata × List Byte :=
  (⟨updateLast (addChunk col c n) m.rowGroups, m.headerLog ++ [(col, n)]⟩,
    pageHeaderBytes u c n)

/-- Modelled from the spec: `Metadata.Rows` — the file's total record
count, the per-row-group count being the merged value count of the row
group's first column. -/
def rowsOf (rgs : List (List Chunk)) : Nat :=
  (rgs.map fun rg => ((rg.head?).map fun ch => ch.pos.n).getD 0).sum

/-- Modelled from the spec: `Metadata.Offsets` — for a field name, the list
of positions of its chunks across all row groups, in order. -/
def offsetsFor (rgs : List (List Chunk)) (name : ColName) : List Position :=
  (rgs.flatten.filter fun ch => ch.name = name).map Chunk.pos

/-! ### Footer serialization (spec-modelled) -/

/-- Modelled from the spec: serialized form of one column chunk inside the
footer (name length, name bytes, then the position triple, all 8-byte LE
except the name bytes). -/
def serChunk (ch : Chunk) : List Byte :=
  leBytes 8 ch.name.length ++ ch.name ++
    leBytes 8 ch.pos.offset ++ leBytes 8 ch.pos.compressedSize ++ leBytes 8 ch.pos.n

/-- Modelled from the spec: serialized form of one footer row group. -/
def serRowGroup (rg : List Chunk) : List Byte :=
  leBytes 8 rg.length ++ rg.flatMap serChunk

/-- Modelled from the spec: `Metadata.Footer`'s serialized row-group index
(the footer record; its 4-byte length and the trailing magic are written
separately). -/
def serFooter (rgs : List (List Chunk)) : List Byte :=
  leBytes 8 rgs.length ++ rgs.flatMap serRowGroup

/-- Parse one serialized chunk. -/
def parseChunk (bs : List Byte) : Option (Chunk × List Byte) :=
  match readN 8 bs with
  | none => none
  | some (lb, r1) =>
    match readN (leVal lb) r1 with
    | none => none
    | some (name, r2) =>
      match readN 8 r2 with
      | none => none
      | some (ob, r3) =>
        match readN 8 r3 with
        | none => none
        | some (cb, r4) =>
          match readN 8 r4 with
          | none => none
          | some (nb, r5) => some (⟨name, ⟨leVal ob, leVal cb, leVal nb⟩⟩, r5)

/-- Parse `k` serialized chunks. -/
def parseChunks : Nat → List Byte → Option (List Chunk × List Byte)
  | 0, bs => some ([], bs)
  | k + 1, bs =>
    match parseChunk bs with
    | none => none
    | some (ch, rest) =>
      (parseChunks k rest).map fun (cs, r) => (ch :: cs, r)

/-- Parse one serialized row group. -/
def parseRowGroup (bs : List Byte) : Option (List Chunk × List Byte) :=
  match readN 8 bs with
  | none => none
  | some (kb, r1) => parseChunks (leVal kb) r1

/-- Parse `k` serialized row groups. -/
def parseRowGroups : Nat → List Byte → Option (List (List Chunk) × List Byte)
  | 0, bs => some ([], bs)
  | k + 1, bs =>
    match parseRowGroup bs with
    | none => none
    | some (rg, rest) =>
      (parseRowGroups k rest).map fun (rgs, r) => (rg :: rgs, r)

/-- Parse a serialized footer record. -/
def parseFooter (bs : List Byte) : Option (List (List Chunk)) :=
  match readN 8 bs with
  | none => none
  | some (kb, r1) =>
    (parseRowGroups (leVal kb) r1).map Prod.fst

/-- Modelled from the spec: `Metadata.ReadFooter` (§4.5) — seek to
end-minus-8, read the 4-byte little-endian footer length, seek back past
it, and parse the footer record.  The trailing magic is not inspected. -/
def readFooter (file : List Byte) : Option (List (List Chunk)) :=
  if 8 ≤ file.length then
    let flen := leVal ((file.drop (file.length - 8)).take 4)
    if flen + 8 ≤ file.length then
      parseFooter ((file.drop (file.length - 8 - flen)).take flen)
    else none
  else none

/-- Size conditions under which a chunk's serialization parses back
(its numbers fit the footer's 8-byte fields). -/
def chunkWF (ch : Chunk) : Prop :=
  ch.name.length < 2 ^ 64 ∧ ch.pos.offset < 2 ^ 64 ∧
    ch.pos.compressedSize < 2 ^ 64 ∧ ch.pos.n < 2 ^ 64

instance (ch : Chunk) : Decidable (chunkWF ch) := by
  unfold chunkWF
  infer_instance

theorem parseChunk_serChunk {ch : Chunk} (rest : List Byte) (h : chunkWF ch) :
    parseChunk (serChunk ch ++ rest) = some (ch, rest) := by
  obtain ⟨h1, h2, h3, h4⟩ := h
  unfold parseChunk serChunk
  simp only [List.append_assoc]
  simp only [readN_append _ (leBytes_length 8 ch.name.length)]
  rw [leVal_leBytes_of_lt (by norm_num; omega)]
  simp only [readN_append _ rfl, readN_append _ (leBytes_length 8 ch.pos.offset),
    readN_append _ (leBytes_length 8 ch.pos.compressedSize),
    readN_append _ (leBytes_length 8 ch.pos.n)]
  rw [leVal_leBytes_of_lt (by norm_num; omega),
    leVal_leBytes_of_lt (by norm_num; omega),
    leVal_leBytes_of_lt (by norm_num; omega)]

theorem parseChunks_serChunks {cs : List Chunk} (rest : List Byte)
    (h : ∀ ch ∈ cs, chunkWF ch) :
    parseChunks cs.length (cs.flatMap serChunk ++ rest) = some (cs, rest) := by
  induction cs generalizing rest with
  | nil => simp [parseChunks]
  | cons ch ct ih =>
    simp only [List.length_cons, List.flatMap_cons, List.append_assoc, parseChunks]
    rw [parseChunk_serChunk _ (h ch (by simp))]
    dsimp only
    rw [ih rest fun c hc => h c (by simp [hc])]
    rfl

/-- Size conditions under which a row group's serialization parses back. -/
def rowGroupWF (rg : List Chunk) : Prop :=
  rg.length < 2 ^ 64 ∧ ∀ ch ∈ rg, chunkWF ch

theorem parseRowGroup_serRowGroup {rg : List Chunk} (rest : List Byte)
    (h : rowGroupWF rg) :
    parseRowGroup (serRowGroup rg ++ rest) = some (rg, rest) := by
  obtain ⟨h1, h2⟩ := h
  unfold parseRowGroup serRowGroup
  simp only [List.append_assoc, readN_append _ (leBytes_length 8 rg.length)]
  rw [leVal_leBytes_of_lt (by norm_num; omega)]
  exact parseChunks_serChunks rest h2

theorem parseRowGroups_serRowGroups {rgs : List (List Chunk)} (rest : List Byte)
    (h : ∀ rg ∈ rgs, rowGroupWF rg) :
    parseRowGroups rgs.length (rgs.flatMap serRowGroup ++ rest) = some (rgs, rest) := by
  induction rgs generalizing rest with
  | nil => simp [parseRowGroups]
  | cons rg rt ih =>
    simp only [List.length_cons, List.flatMap_cons, List.append_assoc, parseRowGroups]
    rw [parseRowGroup_serRowGroup _ (h rg (by simp))]
    dsimp only
    rw [ih rest fun g hg => h g (by simp [hg])]
    rfl

/-- Size conditions under which a footer's serialization parses back. -/
def footerWF (rgs : List (List Chunk)) : Prop :=
  rgs.length < 2 ^ 64 ∧ ∀ rg ∈ rgs, rowGroupWF rg

theorem parseFooter_serFooter {rgs : List (List Chunk)} (h : footerWF rgs) :
    parseFooter (serFooter rgs) = some rgs := by
  obtain ⟨h1, h2⟩ := h
  unfold parseFooter serFooter
  have hre : rgs.flatMap serRowGroup = rgs.flatMap serRowGroup ++ [] := by simp
  rw [readN_append _ (leBytes_length 8 rgs.length)]
  dsimp only
  rw [leVal_leBytes_of_lt (by norm_num; omega), hre, parseRowGroups_serRowGroups _ h2]
  rfl

theorem readFooter_of_layout {pre f tail : List Byte} {rgs : List (List Chunk)}
    (htail : tail.length = 4)
    (hflen : f.length < 2 ^ 32)
    (hparse : parseFooter f = some rgs) :
    readFooter (pre ++ f ++ leBytes 4 f.length ++ tail) = some rgs := by
  unfold readFooter
  have hlen4 : (leBytes 4 f.length).length = 4 := leBytes_length 4 _
  have hL : (pre ++ f ++ leBytes 4 f.length ++ tail).length
      = pre.length + f.length + 8 := by
    simp [hlen4, htail]
    omega
  have h8 : 8 ≤ (pre ++ f ++ leBytes 4 f.length ++ tail).length := by omega
  rw [if_pos h8, hL]
  have hdrop : (pre ++ f ++ leBytes 4 f.length ++ tail).drop (pre.length + f.length + 8 - 8)
      = leBytes 4 f.length ++ tail := by
    have : pre.length + f.length + 8 - 8 = (pre ++ f).length := by simp
    rw [this, List.append_assoc, List.drop_left]
  rw [hdrop, List.take_left' hlen4, leVal_leBytes_of_lt (by norm_num; omega)]
  rw [if_pos (by omega)]
  have hdrop2 : (pre ++ f ++ leBytes 4 f.length ++ tail).drop
      (pre.length + f.length + 8 - 8 - f.length) = f ++ (leBytes 4 f.length ++ tail) := by
    have : pre.length + f.length + 8 - 8 - f.length = pre.length := by omega
    rw [this, List.append_assoc, List.append_assoc, List.drop_left]
  rw [hdrop2, List.take_left' rfl, hparse]

/-! ## Column buffers and the writer -/

/-- Repetition of a schema field. -/
inductive Rep
  | required
  | optional
deriving DecidableEq

/-- One schema field descriptor (`parquet.Field` as produced by the
generated `Schema()` methods: name, physical type, repetition). -/
structure SchemaField where
  name : ColName
  typ : PType
  rep : Rep
deriving DecidableEq

/-- A record: one entry per schema field, in schema order, `none` marking an
absent optional value.  The generated code never inspects records itself;
the per-field `val`/`read` closures are modelled as positional access. -/
abbrev Rec := List (Option PValue)

/-- The in-memory buffer of one generated field (`vals` plus, for optional
variants, the parallel `defs` slice; required variants never touch
`defs`). -/
structure FieldBuf where
  vals : List PValue
  defs : List Nat
deriving DecidableEq

/-- The empty buffer a freshly constructed field starts with. -/
def emptyBuf : FieldBuf := ⟨[], []⟩

/-- A placeholder value (the zero value the required `val` adapter would
yield if a record were malformed; never reached for well-formed records). -/
def junkValue : PValue := .vuint32 0

/-- A default schema field used only to discharge `getD` obligations. -/
def dfltField : SchemaField := ⟨[], .pbool, .required⟩

/-- `Field.Add` for field `i`: required variants append the extracted value
to `vals`; optional variants append the value and a `1` definition level
when present, or only a `0` level when absent. -/
def fieldAdd (i : Nat) (sf : SchemaField) (b : FieldBuf) (r : Rec) : FieldBuf :=
  match sf.rep with
  | .required => { b with vals := b.vals ++ [(r.getD i none).getD junkValue] }
  | .optional =>
    match r.getD i none with
    | some v => ⟨b.vals ++ [v], b.defs ++ [1]⟩
    | none => { b with defs := b.defs ++ [0] }

/-- One record appended to every field buffer of a row group, in schema
order (`for _, f := range p.fields { f.Add(rec) }`). -/
def addBufs (schema : List SchemaField) (i : Nat) (bufs : List FieldBuf) (r : Rec) :
    List FieldBuf :=
  match schema, bufs with
  | sf :: st, b :: bt => fieldAdd i sf b r :: addBufs st (i + 1) bt r
  | _, _ => []

/-- One `ParquetWriter` of the chained row-group list: its field buffers
(schema order) and its record count `len`. -/
structure Group where
  bufs : List FieldBuf
  len : Nat
deriving DecidableEq

/-- A freshly constructed row group: empty buffers, `len = 0`. -/
def emptyGroup (schema : List SchemaField) : Group :=
  ⟨schema.map fun _ => emptyBuf, 0⟩

/-- `ParquetWriter.Add` over the chained row groups (root first): a full
group (`len == max`) forwards the record to its child, allocating the child
on first overflow; otherwise every field appends and `len` increments.
Faithful for `max ≥ 1` — with `max = 0` the Go code recurses forever
allocating children, so no theorem instantiates `max = 0`. -/
def addChain (schema : List SchemaField) (max : Nat) (r : Rec) :
    List Group → List Group
  | [] => [⟨addBufs schema 0 (emptyGroup schema).bufs r, 1⟩]
  | g :: rest =>
    if g.len = max then g :: addChain schema max r rest
    else ⟨addBufs schema 0 g.bufs r, g.len + 1⟩ :: rest

/-- The writer state: configured page size `max`, the chained row groups
(root first), the metadata collaborator, and the bytes written so far. -/
structure Wstate where
  max : Nat
  chain : List Group
  meta : Metadata
  out : List Byte

/-- `NewParquetWriter`: default `max = 1000` overridable by `MaxPageSize`,
fresh metadata over the schema, and the `begin` option writing the leading
magic. -/
def magic : List Byte := [0x50, 0x41, 0x52, 0x31]

/-- Writer construction (`newParquetWriter` with the `begin` option): one
empty row group, fresh metadata, leading magic emitted. -/
def newWriter (schema : List SchemaField) (max : Nat) : Wstate :=
  ⟨max, [emptyGroup schema], metaNew, magic⟩

/-- `ParquetWriter.Add` on the writer state. -/
def writerAdd (schema : List SchemaField) (w : Wstate) (r : Rec) : Wstate :=
  { w with chain := addChain schema w.max r w.chain }

/-- The `WriteCounter` wrapping an output: counts every byte written
through it. -/
structure WriteCounter where
  n : Nat
  out : List Byte

/-- `WriteCounter.Write`: forward to the wrapped writer and add the bytes
written to `n`. -/
def wcWrite (wc : WriteCounter) (p : List Byte) : WriteCounter :=
  ⟨wc.n + p.length, wc.out ++ p⟩

/-- `RequiredField.doWrite`: snappy-compress the encoded values, emit a page
header carrying (uncompressed length, compressed length, value count), then
the compressed payload.  Returns updated metadata and emitted bytes. -/
def doWriteRequired (m : Metadata) (col : ColName) (vals : List Byte) (count : Nat) :
    Metadata × List Byte :=
  let compressed := snappyEncode vals
  let (m2, hdr) := writePageHeader m col vals.length compressed.length count
  (m2, hdr ++ compressed)

/-- `OptionalField.doWrite`: write the definition levels and then the
encoded values through a `WriteCounter` into a buffer, compress the buffer,
and emit a page header whose uncompressed size is `wc.n` — the counter has
seen both the level bytes and the value bytes — and whose value count is
`len(defs)`. -/
def doWriteOptional (m : Metadata) (col : ColName) (defs : List Nat)
    (vals : List Byte) : Metadata × List Byte :=
  let wc1 := wcWrite ⟨0, []⟩ (writeLevels defs)
  let wc2 := wcWrite wc1 vals
  let compressed := snappyEncode wc2.out
  let (m2, hdr) := writePageHeader m col wc2.n compressed.length defs.length
  (m2, hdr ++ compressed)

/-- `Field.Write` for one field buffer: encode the buffered column and
dispatch to the required or optional `doWrite`. -/
def fieldWrite (sf : SchemaField) (b : FieldBuf) (m : Metadata) :
    Metadata × List Byte :=
  match sf.rep with
  | .required => doWriteRequired m sf.name (encodeColumn sf.typ b.vals) b.vals.length
  | .optional => doWriteOptional m sf.name b.defs (encodeColumn sf.typ b.vals)

/-- The inner loop of `ParquetWriter.Write` for column `i`: the root row
group's page, then each chained child's page for the same column. -/
def writeColumn (sf : SchemaField) (i : Nat) (chain : List Group) (m : Metadata) :
    Metadata × List Byte :=
  match chain with
  | [] => (m, [])
  | g :: rest =>
    let (m1, b1) := fieldWrite sf (g.bufs.getD i emptyBuf) m
    let (m2, b2) := writeColumn sf i rest m1
    (m2, b1 ++ b2)

/-- The outer loop of `ParquetWriter.Write`: columns in schema order, row
groups inside. -/
def writeColumns (schema : List SchemaField) (i : Nat) (chain : List Group)
    (m : Metadata) : Metadata × List Byte :=
  match schema with
  | [] => (m, [])
  | sf :: st =>
    let (m1, b1) := writeColumn sf i chain m
    let (m2, b2) := writeColumns st (i + 1) chain m1
    (m2, b1 ++ b2)

/-- `ParquetWriter.Write` (flush): serialize every column of every chained
row group, reset the chain to a single empty row group, and tell the
metadata to start a fresh row group. -/
def writerWrite (schema : List SchemaField) (w : Wstate) : Wstate :=
  let (m1, bytes) := writeColumns schema 0 w.chain w.meta
  ⟨w.max, [emptyGroup schema], startRowGroup m1, w.out ++ bytes⟩

/-- `ParquetWriter.Close`: delegate the footer (record plus 4-byte
little-endian length) to the metadata, then write the trailing magic. -/
def writerClose (w : Wstate) : Wstate :=
  let f := serFooter w.meta.rowGroups
  { w with out := w.out ++ f ++ leBytes 4 f.length ++ magic }

/-- The full write pipeline: construct a writer with page size `max`, add
every record of `R`, flush once, close. -/
def writeFile (schema : List SchemaField) (max : Nat) (R : List Rec) : Wstate :=
  writerClose (writerWrite schema (R.foldl (writerAdd schema) (newWriter schema max)))

/-! ## The reader -/

/-- `OptionalField.nVals`: the number of definition levels equal to 1. -/
def nValsOf (defs : List Nat) : Nat := (defs.filter fun d => d = 1).length

/-- `RequiredField.doRead`: starting from the current stream position, parse
page headers and accumulate decompressed page payloads until the summed
value counts reach `pos.N`.  The loop is driven by `fuel`; each iteration
consumes at least the page header, so `stream length + 1` fuel is always
enough, and exhaustion models the Go loop erroring at end of stream. -/
def doReadRequired (fuel : Nat) (posN nRead : Nat) (out bs : List Byte) :
    Option (List Byte × List Byte) :=
  match fuel with
  | 0 => none
  | fuel + 1 =>
    if nRead < posN then
      match parsePageHeader bs with
      | none => none
      | some (_, c, n, r1) =>
        match readN c r1 with
        | none => none
        | some (compressed, r2) =>
          match snappyDecode compressed with
          | none => none
          | some data => doReadRequired fuel posN (nRead + n) (out ++ data) r2
    else some (out, bs)

/-- `OptionalField.doRead`: as `doReadRequired`, but each decompressed page
is split by `parquet.ReadLevels` into its definition levels (appended to
the accumulated `defs`) and the residual value payload. -/
def doReadOptional (fuel : Nat) (posN nRead : Nat) (dacc : List Nat)
    (out bs : List Byte) : Option (List Nat × List Byte × List Byte) :=
  match fuel with
  | 0 => none
  | fuel + 1 =>
    if nRead < posN then
      match parsePageHeader bs with
      | none => none
      | some (_, c, n, r1) =>
        match readN c r1 with
        | none => none
        | some (compressed, r2) =>
          match snappyDecode compressed with
          | none => none
          | some data =>
            match readLevels data with
            | none => none
            | some (ds, l) =>
              doReadOptional fuel posN (nRead + n) (dacc ++ ds) (out ++ data.drop l) r2
    else some (dacc, out, bs)

/-- `Field.Read` for one column: run the row group's pages through `doRead`
and decode the payload into the buffer.  Required variants decode `pos.N`
values; optional variants decode `nVals() - len(vals)` values against the
accumulated definition levels (`StringOptionalField.Read` instead walks the
levels appended by this call, starting at the pre-call `len(defs)`). -/
def fieldRead (sf : SchemaField) (b : FieldBuf) (bs : List Byte) (pos : Position) :
    Option (FieldBuf × List Byte) :=
  match sf.rep with
  | .required =>
    match doReadRequired (bs.length + 1) pos.n 0 [] bs with
    | none => none
    | some (payload, rest) =>
      (decodeColumn sf.typ pos.n payload).map fun vs =>
        ({ b with vals := b.vals ++ vs }, rest)
  | .optional =>
    match doReadOptional (bs.length + 1) pos.n 0 b.defs [] bs with
    | none => none
    | some (defs2, payload, rest) =>
      match sf.typ with
      | .pstring =>
        (decodeStringsOpt defs2 b.defs.length pos.n payload).map fun vs =>
          (⟨b.vals ++ vs, defs2⟩, rest)
      | t =>
        (decodeColumn t (nValsOf defs2 - b.vals.length) payload).map fun vs =>
          (⟨b.vals ++ vs, defs2⟩, rest)

/-- Errors surfaced by `NewParquetReader` (`fmt.Errorf` values in the
source; Go panics on slice indexing are modelled as `indexRange`). -/
inductive RErr
  | footerBad
  | unknownField (name : ColName)
  | indexRange
  | readFailed (name : ColName)
deriving DecidableEq

/-- Find the field of a column name (`pr.fields[name]`, the map built by
`getFields`; schema names are unique, making first-match faithful). -/
def fieldIndex (schema : List SchemaField) (name : ColName) : Option Nat :=
  match schema with
  | [] => none
  | sf :: st =>
    if sf.name = name then some 0
    else (fieldIndex st name).map (· + 1)

/-- The inner column loop of `NewParquetReader` for row group `i`: look the
column up by the last path segment, fail on an unknown field, stop early
(`break`) when the field has no offsets, read the column's pages via the
position for this (column, row group). -/
def readCols (schema : List SchemaField) (rgs : List (List Chunk)) (i : Nat)
    (cols : List Chunk) (bufs : List FieldBuf) (bs : List Byte) :
    Except RErr (List FieldBuf × List Byte) :=
  match cols with
  | [] => .ok (bufs, bs)
  | col :: rest =>
    match fieldIndex schema col.name with
    | none => .error (.unknownField col.name)
    | some j =>
      let offs := offsetsFor rgs col.name
      if offs.length ≤ 0 then .ok (bufs, bs)
      else
        match offs.get? i with
        | none => .error .indexRange
        | some o =>
          match fieldRead (schema.getD j dfltField)
              (bufs.getD j emptyBuf) bs o with
          | none => .error (.readFailed col.name)
          | some (b2, bs2) => readCols schema rgs i rest (bufs.set j b2) bs2

/-- The outer row-group loop of `NewParquetReader`. -/
def readRowGroupsLoop (schema : List SchemaField) (rgs : List (List Chunk))
    (i : Nat) (todo : List (List Chunk)) (bufs : List FieldBuf) (bs : List Byte) :
    Except RErr (List FieldBuf × List Byte) :=
  match todo with
  | [] => .ok (bufs, bs)
  | rg :: rest =>
    match readCols schema rgs i rg bufs bs with
    | .error e => .error e
    | .ok (bufs2, bs2) => readRowGroupsLoop schema rgs (i + 1) rest bufs2 bs2

/-- The reader state after construction: filled column buffers, total row
count, and the `cur` cursor driven by `Next`. -/
structure RState where
  bufs : List FieldBuf
  rows : Nat
  cur : Nat
deriving DecidableEq

/-- `NewParquetReader`: parse the footer, seek past the leading magic, and
read every row group's columns into the schema's field buffers. -/
def newParquetReader (schema : List SchemaField) (file : List Byte) :
    Except RErr RState :=
  match readFooter file with
  | none => .error .footerBad
  | some rgs =>
    match readRowGroupsLoop schema rgs 0 rgs (schema.map fun _ => emptyBuf)
        (file.drop 4) with
    | .error e => .error e
    | .ok (bufs, _) => .ok ⟨bufs, rowsOf rgs, 0⟩

/-- `Field.Scan` for field `j`: pop the head of the buffer and inject it
into the record at position `j`.  An empty buffer is a no-op.  For optional
variants a `1` level with an empty `vals` slice cannot occur under the
buffer invariant (Go would panic on `f.vals[0]`); it is modelled by
injecting the placeholder. -/
def fieldScan (sf : SchemaField) (j : Nat) (b : FieldBuf) (r : Rec) :
    FieldBuf × Rec :=
  match sf.rep with
  | .required =>
    match b.vals with
    | [] => (b, r)
    | v :: vt => ({ b with vals := vt }, r.set j (some v))
  | .optional =>
    match b.defs with
    | [] => (b, r)
    | d :: dt =>
      if d = 1 then
        match b.vals with
        | v :: vt => (⟨vt, dt⟩, r.set j (some v))
        | [] => (⟨[], dt⟩, r.set j (some junkValue))
      else ({ b with defs := dt }, r.set j none)

/-- `ParquetReader.Scan`: drive every field's `Scan` against the record.
The Go loop ranges over a map; since each field writes a distinct record
position, schema order is an equivalent deterministic schedule. -/
def scanBufs (schema : List SchemaField) (j : Nat) (bufs : List FieldBuf)
    (r : Rec) : List FieldBuf × Rec :=
  match schema, bufs with
  | sf :: st, b :: bt =>
    let (b2, r2) := fieldScan sf j b r
    let (bt2, r3) := scanBufs st (j + 1) bt r2
    (b2 :: bt2, r3)
  | _, _ => ([], r)

/-- The record a single `Scan` call fills, starting from a fresh zero
record (`var x T`), plus the advanced buffers. -/
def scanOnce (schema : List SchemaField) (bufs : List FieldBuf) :
    List FieldBuf × Rec :=
  let (bufs2, r) := scanBufs schema 0 bufs (schema.map fun _ => none)
  (bufs2, r)

/-- Drive `Next`/`Scan` the way a consumer does: one `Scan` per successful
`Next`, i.e. exactly `rows` times. -/
def scanAll (schema : List SchemaField) : Nat → List FieldBuf → List Rec
  | 0, _ => []
  | k + 1, bufs =>
    let (bufs2, r) := scanOnce schema bufs
    r :: scanAll schema k bufs2

/-- The full read pipeline: construct the reader over the file bytes and
scan out every record. -/
def readRecords (schema : List SchemaField) (file : List Byte) :
    Except RErr (List Rec) :=
  match newParquetReader schema file with
  | .error e => .error e
  | .ok st => .ok (scanAll schema st.rows st.bufs)

/-! ## How `Add` partitions records into row groups -/

/-- Route one record into a chain of record chunks the way `Add` routes it
into the chained row groups: skip full chunks, append to the first
non-full one, or open a new chunk at the end. -/
def snocChunk (P : Nat) (r : Rec) : List (List Rec) → List (List Rec)
  | [] => [[r]]
  | c :: rest => if c.length = P then c :: snocChunk P r rest else (c ++ [r]) :: rest

/-- The partition of the record sequence into row-group chunks: the root
group starts empty and every record is routed by `snocChunk`. -/
def chunksP (P : Nat) (R : List Rec) : List (List Rec) :=
  R.foldl (fun cs r => snocChunk P r cs) [[]]

theorem chunksP_snoc (P : Nat) (R : List Rec) (r : Rec) :
    chunksP P (R ++ [r]) = snocChunk P r (chunksP P R) := by
  unfold chunksP
  rw [List.foldl_append]
  rfl

/-- Closed form of the partition: successive slices of `P` records, the
last slice holding the remainder (the whole of `R` when `R` fits in one
group or `P = 0`). -/
def splitChunks (P : Nat) (R : List Rec) : List (List Rec) :=
  if R.length ≤ P ∨ P = 0 then [R]
  else R.take P :: splitChunks P (R.drop P)
termination_by R.length
decreasing_by
  simp only [List.length_drop]
  omega

theorem splitChunks_snoc {P : Nat} (hP : 1 ≤ P) (R : List Rec) (r : Rec) :
    splitChunks P (R ++ [r]) = snocChunk P r (splitChunks P R) := by
  rcases lt_trichotomy R.length P with h | h | h
  · have e1 : splitChunks P (R ++ [r]) = [R ++ [r]] := by
      rw [splitChunks]
      exact if_pos (Or.inl (by simp; omega))
    have e2 : splitChunks P R = [R] := by
      rw [splitChunks]
      exact if_pos (Or.inl (by omega))
    rw [e1, e2]
    simp only [snocChunk]
    rw [if_neg (by omega)]
  · have e1 : splitChunks P (R ++ [r])
        = (R ++ [r]).take P :: splitChunks P ((R ++ [r]).drop P) := by
      rw [splitChunks]
      exact if_neg (by simp; omega)
    have e2 : splitChunks P R = [R] := by
      rw [splitChunks]
      exact if_pos (Or.inl (by omega))
    have e3 : splitChunks P [r] = [[r]] := by
      rw [splitChunks]
      exact if_pos (Or.inl (by simp; omega))
    rw [e1, e2, List.take_left' h, List.drop_left' h, e3]
    simp only [snocChunk]
    rw [if_pos h]
  · have e1 : splitChunks P (R ++ [r])
        = (R ++ [r]).take P :: splitChunks P ((R ++ [r]).drop P) := by
      rw [splitChunks]
      exact if_neg (by simp; omega)
    have e2 : splitChunks P R = R.take P :: splitChunks P (R.drop P) := by
      rw [splitChunks]
      exact if_neg (by omega)
    rw [e1, e2, List.take_append_of_le_length (by omega),
      List.drop_append_of_le_length (by omega),
      splitChunks_snoc hP (R.drop P) r]
    simp only [snocChunk]
    rw [if_pos (List.length_take_of_le (by omega))]
termination_by R.length
decreasing_by
  simp only [List.length_drop]
  omega

theorem chunksP_eq_splitChunks {P : Nat} (hP : 1 ≤ P) (R : List Rec) :
    chunksP P R = splitChunks P R := by
  induction R using List.reverseRecOn with
  | nil =>
    rw [splitChunks, if_pos (by simp)]
    rfl
  | append_singleton R r ih =>
    rw [chunksP_snoc, ih, splitChunks_snoc hP]

theorem splitChunks_ne_nil (P : Nat) (R : List Rec) : splitChunks P R ≠ [] := by
  rw [splitChunks]
  split <;> simp

theorem splitChunks_flatten (P : Nat) (R : List Rec) :
    (splitChunks P R).flatten = R := by
  rw [splitChunks]
  split
  · simp
  · rename_i h
    push_neg at h
    simp only [List.flatten_cons]
    rw [splitChunks_flatten P (R.drop P)]
    simp
termination_by R.length
decreasing_by
  simp only [List.length_drop]
  omega

theorem splitChunks_length_le (P : Nat) (R : List Rec) :
    ∀ c ∈ splitChunks P R, P ≠ 0 → c.length ≤ P := by
  rw [splitChunks]
  split
  · rename_i h
    intro c hc hP
    simp at hc
    subst hc
    omega
  · rename_i h
    push_neg at h
    intro c hc hP
    simp at hc
    rcases hc with hc | hc
    · subst hc
      simp
    · exact splitChunks_length_le P (R.drop P) c hc hP
termination_by R.length
decreasing_by
  simp only [List.length_drop]
  omega

theorem splitChunks_dropLast (P : Nat) (R : List Rec) :
    ∀ c ∈ (splitChunks P R).dropLast, c.length = P := by
  rw [splitChunks]
  split
  · simp
  · rename_i h
    push_neg at h
    intro c hc
    rw [List.dropLast_cons_of_ne_nil (splitChunks_ne_nil P (R.drop P))] at hc
    rcases List.mem_cons.mp hc with hc | hc
    · subst hc
      exact List.length_take_of_le (by omega)
    · exact splitChunks_dropLast P (R.drop P) c hc
termination_by R.length
decreasing_by
  simp only [List.length_drop]
  omega

theorem splitChunks_pos {P : Nat} (R : List Rec) (hR : R ≠ []) :
    ∀ c ∈ splitChunks P R, 1 ≤ c.length := by
  rw [splitChunks]
  split
  · intro c hc
    simp at hc
    rw [hc]
    exact List.length_pos.mpr hR
  · rename_i h
    push_neg at h
    intro c hc
    simp at hc
    rcases hc with hc | hc
    · subst hc
      simp
      omega
    · refine splitChunks_pos (R.drop P) ?_ c hc
      intro hcon
      have := congrArg List.length hcon
      simp at this
      omega
termination_by R.length
decreasing_by
  simp only [List.length_drop]
  omega

theorem splitChunks_nil (P : Nat) : splitChunks P [] = [[]] := by
  rw [splitChunks]
  simp

theorem splitChunks_count {P : Nat} (hP : 1 ≤ P) (R : List Rec) (hR : R ≠ []) :
    (splitChunks P R).length = (R.length + P - 1) / P := by
  rw [splitChunks]
  split
  · rename_i h
    have hlen : 1 ≤ R.length := by
      cases R with
      | nil => exact absurd rfl hR
      | cons a l => simp
    have h2 : R.length ≤ P := by omega
    have hdiv : (R.length + P - 1) / P = 1 :=
      Nat.div_eq_of_lt_le (by omega) (by omega)
    simp [hdiv]
  · rename_i h
    push_neg at h
    have hd : R.drop P ≠ [] := by
      intro hcon
      have := congrArg List.length hcon
      simp at this
      omega
    simp only [List.length_cons]
    rw [splitChunks_count hP (R.drop P) hd]
    simp only [List.length_drop]
    have hq : R.length - P + P - 1 = R.length - 1 := by omega
    rw [hq]
    have h1 : 1 ≤ R.length := by omega
    have h2 : R.length + P - 1 = (R.length - 1) + 1 * P := by omega
    rw [h2, Nat.add_mul_div_right _ _ (by omega)]
termination_by R.length
decreasing_by
  simp only [List.length_drop]
  omega

/-! ## What the buffers hold after a sequence of `Add` calls -/

/-- The buffer contents of field `i` after the records of `c` have been
appended: required buffers hold the extracted values, optional buffers the
present values and the parallel 0/1 definition levels. -/
def colifyBuf (sf : SchemaField) (i : Nat) (c : List Rec) : FieldBuf :=
  match sf.rep with
  | .required => ⟨c.map fun r => (r.getD i none).getD junkValue, []⟩
  | .optional =>
    ⟨c.filterMap fun r => r.getD i none,
      c.map fun r => if (r.getD i none).isSome then 1 else 0⟩

/-- Buffers of a schema suffix starting at field index `i`. -/
def colifyBufs : List SchemaField → Nat → List Rec → List FieldBuf
  | [], _, _ => []
  | sf :: st, i, c => colifyBuf sf i c :: colifyBufs st (i + 1) c

/-- The row group determined by a chunk of records. -/
def mkGroup (schema : List SchemaField) (c : List Rec) : Group :=
  ⟨colifyBufs schema 0 c, c.length⟩

theorem fieldAdd_colifyBuf (sf : SchemaField) (i : Nat) (c : List Rec) (r : Rec) :
    fieldAdd i sf (colifyBuf sf i c) r = colifyBuf sf i (c ++ [r]) := by
  cases hrep : sf.rep with
  | required => simp [fieldAdd, colifyBuf, hrep]
  | optional =>
    cases hv : r.getD i none with
    | none =>
      rw [List.getD_eq_getElem?_getD] at hv
      simp [fieldAdd, colifyBuf, hrep, hv]
    | some v =>
      rw [List.getD_eq_getElem?_getD] at hv
      simp [fieldAdd, colifyBuf, hrep, hv]

theorem addBufs_colifyBufs (st : List SchemaField) (i : Nat) (c : List Rec) (r : Rec) :
    addBufs st i (colifyBufs st i c) r = colifyBufs st i (c ++ [r]) := by
  induction st generalizing i with
  | nil => rfl
  | cons sf st ih =>
    simp only [colifyBufs, addBufs, fieldAdd_colifyBuf, ih]

theorem colifyBufs_nil (st : List SchemaField) (i : Nat) :
    colifyBufs st i [] = st.map fun _ => emptyBuf := by
  induction st generalizing i with
  | nil => rfl
  | cons sf st ih =>
    simp only [colifyBufs, List.map_cons, ih]
    congr 1
    cases h : sf.rep <;> simp [colifyBuf, h, emptyBuf]

theorem mkGroup_nil (schema : List SchemaField) :
    mkGroup schema [] = emptyGroup schema := by
  simp [mkGroup, emptyGroup, colifyBufs_nil]

theorem addChain_map {schema : List SchemaField} {P : Nat} (r : Rec)
    (cs : List (List Rec)) :
    addChain schema P r (cs.map (mkGroup schema))
      = (snocChunk P r cs).map (mkGroup schema) := by
  induction cs with
  | nil =>
    simp only [List.map_nil, addChain, snocChunk, List.map_cons]
    rw [← mkGroup_nil]
    simp only [mkGroup, addBufs_colifyBufs]
    rfl
  | cons c rest ih =>
    simp only [List.map_cons, addChain, snocChunk, mkGroup]
    by_cases hc : c.length = P
    · rw [if_pos hc, if_pos hc, List.map_cons]
      rw [ih]
      rfl
    · rw [if_neg hc, if_neg hc, List.map_cons]
      simp only [mkGroup, addBufs_colifyBufs]
      simp

theorem foldl_writerAdd (schema : List SchemaField) (max : Nat) (R : List Rec) :
    R.foldl (writerAdd schema) (newWriter schema max)
      = ⟨max, (chunksP max R).map (mkGroup schema), metaNew, magic⟩ := by
  induction R using List.reverseRecOn with
  | nil =>
    simp only [List.foldl_nil, newWriter, chunksP, List.foldl_nil, List.map_cons,
      List.map_nil, mkGroup_nil]
  | append_singleton R r ih =>
    rw [List.foldl_append, ih]
    simp only [List.foldl_cons, List.foldl_nil, writerAdd, chunksP_snoc]
    rw [addChain_map]

/-! ## The byte layout and metadata effect of `Write` -/

/-- The uncompressed page payload of field `i` over one record chunk:
encoded values for required columns, levels followed by encoded present
values for optional columns. -/
def pagePayload (sf : SchemaField) (i : Nat) (c : List Rec) : List Byte :=
  match sf.rep with
  | .required => encodeColumn sf.typ (colifyBuf sf i c).vals
  | .optional =>
    writeLevels (colifyBuf sf i c).defs ++ encodeColumn sf.typ (colifyBuf sf i c).vals

/-- The full page emitted for field `i` over one record chunk: header
(uncompressed length, compressed length, record count) plus the compressed
payload. -/
def pageBytes (sf : SchemaField) (i : Nat) (c : List Rec) : List Byte :=
  pageHeaderBytes (pagePayload sf i c).length
    (snappyEncode (pagePayload sf i c)).length c.length
    ++ snappyEncode (pagePayload sf i c)

/-- The byte stream `Write` produces: columns in schema order, and inside
each column the pages of the chained row groups in chain order. -/
def layoutBytes : List SchemaField → Nat → List (List Rec) → List Byte
  | [], _, _ => []
  | sf :: st, i, cs => (cs.map (pageBytes sf i)).flatten ++ layoutBytes st (i + 1) cs

/-- The single footer chunk a column accumulates over one flush: compressed
sizes and value counts summed over all its pages. -/
def mergedChunk (sf : SchemaField) (i : Nat) (cs : List (List Rec)) : Chunk :=
  ⟨sf.name, ⟨0, (cs.map fun c => (snappyEncode (pagePayload sf i c)).length).sum,
    (cs.map List.length).sum⟩⟩

/-- The footer row group one flush produces: one merged chunk per column,
in schema order. -/
def flushedChunks : List SchemaField → Nat → List (List Rec) → List Chunk
  | [], _, _ => []
  | sf :: st, i, cs => mergedChunk sf i cs :: flushedChunks st (i + 1) cs

/-- The page-header log one flush produces: one `(column, count)` entry per
page, column-major. -/
def headerLogOf : List SchemaField → List (List Rec) → List (ColName × Nat)
  | [], _ => []
  | sf :: st, cs => (cs.map fun c => (sf.name, c.length)) ++ headerLogOf st cs

theorem colifyBuf_vals_length_req {sf : SchemaField} (h : sf.rep = .required)
    (i : Nat) (c : List Rec) : (colifyBuf sf i c).vals.length = c.length := by
  simp [colifyBuf, h]

theorem colifyBuf_defs_length_opt {sf : SchemaField} (h : sf.rep = .optional)
    (i : Nat) (c : List Rec) : (colifyBuf sf i c).defs.length = c.length := by
  simp [colifyBuf, h]

theorem fieldWrite_colifyBuf (sf : SchemaField) (i : Nat) (c : List Rec)
    (m : Metadata) :
    fieldWrite sf (colifyBuf sf i c) m
      = (⟨updateLast
            (addChunk sf.name (snappyEncode (pagePayload sf i c)).length c.length)
            m.rowGroups,
          m.headerLog ++ [(sf.name, c.length)]⟩,
        pageBytes sf i c) := by
  cases hrep : sf.rep with
  | required =>
    simp only [fieldWrite, hrep, doWriteRequired, writePageHeader, pageBytes,
      pagePayload, hrep, colifyBuf_vals_length_req hrep]
  | optional =>
    simp only [fieldWrite, hrep, doWriteOptional, writePageHeader, pageBytes,
      pagePayload, hrep, wcWrite, colifyBuf_defs_length_opt hrep]
    simp [List.length_append]

theorem updateLast_append (f : α → α) (xs : List α) (x : α) :
    updateLast f (xs ++ [x]) = xs ++ [f x] := by
  induction xs with
  | nil => rfl
  | cons y ys ih =>
    cases ys with
    | nil => rfl
    | cons z zs => simpa [updateLast] using ih

theorem addChunk_not_mem {col : ColName} (c n : Nat) {lst : List Chunk}
    (h : ∀ ch ∈ lst, ch.name ≠ col) :
    addChunk col c n lst = lst ++ [⟨col, ⟨0, c, n⟩⟩] := by
  induction lst with
  | nil => rfl
  | cons ch rest ih =>
    rw [addChunk, if_neg (h ch (by simp)), ih fun x hx => h x (by simp [hx])]
    rfl

theorem addChunk_merge {col : ColName} (c n : Nat) {lst : List Chunk}
    (p : Position) (h : ∀ ch ∈ lst, ch.name ≠ col) :
    addChunk col c n (lst ++ [⟨col, p⟩])
      = lst ++ [⟨col, ⟨p.offset, p.compressedSize + c, p.n + n⟩⟩] := by
  induction lst with
  | nil => simp [addChunk]
  | cons ch rest ih =>
    rw [List.cons_append, addChunk, if_neg (h ch (by simp)),
      ih fun x hx => h x (by simp [hx])]
    rfl

theorem colifyBufs_getD (st : List SchemaField) (j k : Nat) (c : List Rec)
    (h : k < st.length) :
    (colifyBufs st j c).getD k emptyBuf = colifyBuf (st.getD k dfltField) (j + k) c := by
  induction st generalizing j k with
  | nil => simp at h
  | cons sf stt ih =>
    cases k with
    | zero => simp [colifyBufs]
    | succ k =>
      simp only [colifyBufs, List.getD_cons_succ]
      rw [ih (j + 1) k (by simpa using h)]
      congr 1
      omega

theorem writeColumn_acc (schema : List SchemaField) (sf : SchemaField) (i : Nat)
    (cs : List (List Rec)) (m : Metadata) (rgs0 : List (List Chunk))
    (lst : List Chunk) (p : Position)
    (hsf : schema.getD i dfltField = sf) (hi : i < schema.length)
    (hm : m.rowGroups = rgs0 ++ [lst ++ [⟨sf.name, p⟩]])
    (hname : ∀ ch ∈ lst, ch.name ≠ sf.name) :
    writeColumn sf i (cs.map (mkGroup schema)) m
      = (⟨rgs0 ++ [lst ++ [⟨sf.name,
            ⟨p.offset,
             p.compressedSize
               + (cs.map fun c => (snappyEncode (pagePayload sf i c)).length).sum,
             p.n + (cs.map List.length).sum⟩⟩]],
          m.headerLog ++ cs.map fun c => (sf.name, c.length)⟩,
        (cs.map (pageBytes sf i)).flatten) := by
  induction cs generalizing m p with
  | nil =>
    simp only [List.map_nil, writeColumn, List.flatten_nil, List.sum_nil,
      Nat.add_zero, List.append_nil]
    cases m with
    | mk rgs log =>
      simp only at hm
      rw [hm]
  | cons c ct ih =>
    simp only [List.map_cons, writeColumn]
    have hbufs : (mkGroup schema c).bufs.getD i emptyBuf = colifyBuf sf i c := by
      simp only [mkGroup]
      rw [colifyBufs_getD schema 0 i c hi, Nat.zero_add, hsf]
    rw [hbufs, fieldWrite_colifyBuf]
    simp only
    have hupd : updateLast
        (addChunk sf.name (snappyEncode (pagePayload sf i c)).length c.length)
        m.rowGroups
        = rgs0 ++ [lst ++ [⟨sf.name,
            ⟨p.offset, p.compressedSize + (snappyEncode (pagePayload sf i c)).length,
             p.n + c.length⟩⟩]] := by
      rw [hm, updateLast_append, addChunk_merge _ _ p hname]
    rw [hupd]
    have hih := ih ⟨rgs0 ++ [lst ++ [⟨sf.name,
        ⟨p.offset, p.compressedSize + (snappyEncode (pagePayload sf i c)).length,
          p.n + c.length⟩⟩]], m.headerLog ++ [(sf.name, c.length)]⟩
      ⟨p.offset, p.compressedSize + (snappyEncode (pagePayload sf i c)).length,
        p.n + c.length⟩ rfl
    rw [hih]
    simp [List.map_cons, List.sum_cons, List.flatten_cons, Nat.add_assoc,
      List.append_assoc]

theorem writeColumn_pages (schema : List SchemaField) (sf : SchemaField) (i : Nat)
    (cs : List (List Rec)) (m : Metadata) (rgs0 : List (List Chunk))
    (lst : List Chunk)
    (hsf : schema.getD i dfltField = sf) (hi : i < schema.length)
    (hcs : cs ≠ []) (hm : m.rowGroups = rgs0 ++ [lst])
    (hname : ∀ ch ∈ lst, ch.name ≠ sf.name) :
    writeColumn sf i (cs.map (mkGroup schema)) m
      = (⟨rgs0 ++ [lst ++ [mergedChunk sf i cs]],
          m.headerLog ++ cs.map fun c => (sf.name, c.length)⟩,
        (cs.map (pageBytes sf i)).flatten) := by
  cases cs with
  | nil => exact absurd rfl hcs
  | cons c ct =>
    simp only [List.map_cons, writeColumn]
    have hbufs : (mkGroup schema c).bufs.getD i emptyBuf = colifyBuf sf i c := by
      simp only [mkGroup]
      rw [colifyBufs_getD schema 0 i c hi, Nat.zero_add, hsf]
    rw [hbufs, fieldWrite_colifyBuf]
    simp only
    have hupd : updateLast
        (addChunk sf.name (snappyEncode (pagePayload sf i c)).length c.length)
        m.rowGroups
        = rgs0 ++ [lst ++ [⟨sf.name,
            ⟨0, (snappyEncode (pagePayload sf i c)).length, c.length⟩⟩]] := by
      rw [hm, updateLast_append, addChunk_not_mem _ _ hname]
    rw [hupd]
    have hih := writeColumn_acc schema sf i ct ⟨rgs0 ++ [lst ++ [⟨sf.name,
        ⟨0, (snappyEncode (pagePayload sf i c)).length, c.length⟩⟩]],
        m.headerLog ++ [(sf.name, c.length)]⟩ rgs0 lst
      ⟨0, (snappyEncode (pagePayload sf i c)).length, c.length⟩ hsf hi rfl hname
    rw [hih]
    simp [mergedChunk, List.map_cons, List.sum_cons, List.flatten_cons,
      List.append_assoc]

theorem writeColumns_layout (schema : List SchemaField) (cs : List (List Rec))
    (hcs : cs ≠ []) (st : List SchemaField) (i : Nat) (m : Metadata)
    (rgs0 : List (List Chunk)) (lst : List Chunk)
    (hst : st = schema.drop i)
    (hname : ∀ sf ∈ st, ∀ ch ∈ lst, ch.name ≠ sf.name)
    (hnd : (st.map SchemaField.name).Nodup)
    (hm : m.rowGroups = rgs0 ++ [lst]) :
    writeColumns st i (cs.map (mkGroup schema)) m
      = (⟨rgs0 ++ [lst ++ flushedChunks st i cs],
          m.headerLog ++ headerLogOf st cs⟩,
        layoutBytes st i cs) := by
  induction st generalizing i m lst with
  | nil =>
    simp only [writeColumns, flushedChunks, headerLogOf, layoutBytes,
      List.append_nil]
    cases m with
    | mk rgs log =>
      simp only at hm
      rw [hm]
  | cons sf st2 ih =>
    have hlen : i < schema.length := by
      have := congrArg List.length hst
      simp at this
      omega
    have hsf : schema.getD i dfltField = sf := by
      have h0 : (schema.drop i)[0]? = schema[i]? := by
        rw [List.getElem?_drop, Nat.add_zero]
      rw [← hst] at h0
      simp at h0
      simp [List.getD_eq_getElem?_getD, ← h0]
    have hndc : (∀ x ∈ st2, ¬x.name = sf.name)
        ∧ (List.map SchemaField.name st2).Nodup := by
      simpa using hnd
    have hst2 : st2 = schema.drop (i + 1) := by
      have h1 := List.drop_drop 1 i schema
      rw [← hst] at h1
      simp at h1
      exact h1
    simp only [writeColumns]
    rw [writeColumn_pages schema sf i cs m rgs0 lst hsf hlen hcs hm
      fun ch hch => hname sf (by simp) ch hch]
    simp only
    have hname2 : ∀ sf2 ∈ st2, ∀ ch ∈ lst ++ [mergedChunk sf i cs], ch.name ≠ sf2.name := by
      intro sf2 hsf2 ch hch
      rcases List.mem_append.mp hch with h | h
      · exact hname sf2 (by simp [hsf2]) ch h
      · simp at h
        subst h
        simp only [mergedChunk]
        exact fun hcon => hndc.1 sf2 hsf2 hcon.symm
    have hih := ih (i + 1) ⟨rgs0 ++ [lst ++ [mergedChunk sf i cs]],
        m.headerLog ++ cs.map fun c => (sf.name, c.length)⟩
      (lst ++ [mergedChunk sf i cs]) hst2 hname2 hndc.2 rfl
    rw [hih]
    simp [flushedChunks, headerLogOf, layoutBytes, List.append_assoc]

theorem writerWrite_spec (schema : List SchemaField) {P : Nat} (hP : 1 ≤ P)
    (R : List Rec) (hnd : (schema.map SchemaField.name).Nodup) :
    writerWrite schema (R.foldl (writerAdd schema) (newWriter schema P))
      = ⟨P, [emptyGroup schema],
          ⟨[flushedChunks schema 0 (chunksP P R), []],
            headerLogOf schema (chunksP P R)⟩,
          magic ++ layoutBytes schema 0 (chunksP P R)⟩ := by
  rw [foldl_writerAdd]
  have hcs : chunksP P R ≠ [] := by
    rw [chunksP_eq_splitChunks hP]
    exact splitChunks_ne_nil P R
  have h := writeColumns_layout schema (chunksP P R) hcs schema 0 metaNew [] []
    (by simp) (by intro sf hsf ch hch; simp at hch) hnd rfl
  unfold writerWrite
  rw [h]
  simp [startRowGroup, metaNew]

theorem writeFile_spec (schema : List SchemaField) {P : Nat} (hP : 1 ≤ P)
    (R : List Rec) (hnd : (schema.map SchemaField.name).Nodup) :
    writeFile schema P R
      = ⟨P, [emptyGroup schema],
          ⟨[flushedChunks schema 0 (chunksP P R), []],
            headerLogOf schema (chunksP P R)⟩,
          magic ++ layoutBytes schema 0 (chunksP P R)
            ++ serFooter [flushedChunks schema 0 (chunksP P R), []]
            ++ leBytes 4 (serFooter [flushedChunks schema 0 (chunksP P R), []]).length
            ++ magic⟩ := by
  unfold writeFile
  rw [writerWrite_spec schema hP R hnd]
  unfold writerClose
  simp [List.append_assoc]

/-! ## Decoding what was encoded -/

/-- Well-formedness of a value for a physical type: the constructor matches
and the value fits its machine width; string payloads are bounded so that
page and footer sizes fit the fixed-width length fields. -/
def valOk : PType → PValue → Prop
  | .pbool, .vbool _ => True
  | .pint32, .vint32 v => -(2 ^ 31) ≤ v ∧ v < 2 ^ 31
  | .puint32, .vuint32 v => v < 2 ^ 32
  | .pint64, .vint64 v => -(2 ^ 63) ≤ v ∧ v < 2 ^ 63
  | .puint64, .vuint64 v => v < 2 ^ 64
  | .pfloat32, .vfloat32 b => b < 2 ^ 32
  | .pstring, .vstring s => s.length ≤ 1024
  | _, _ => False

instance (t : PType) (v : PValue) : Decidable (valOk t v) := by
  cases t <;> cases v <;> simp only [valOk] <;> infer_instance

theorem toUnsigned_lt (w : Nat) (v : Int) : toUnsigned w v < 2 ^ w := by
  unfold toUnsigned
  have h0 : (0 : Int) < 2 ^ w := by positivity
  have h2 : v % ((2 : Int) ^ w) < 2 ^ w := Int.emod_lt_of_pos v h0
  have hc : ((2 ^ w : Nat) : Int) = (2 : Int) ^ w := by push_cast; ring
  omega

theorem pow256_4 : (256 : Nat) ^ 4 = 2 ^ 32 := by norm_num

theorem pow256_8 : (256 : Nat) ^ 8 = 2 ^ 64 := by norm_num

theorem decodeFixed_codes {w : Nat} {mk : Nat → PValue} (codes : List Nat)
    (hcode : ∀ u ∈ codes, u < 256 ^ w) (extra : List Byte) :
    decodeFixed w mk codes.length (codes.flatMap (leBytes w) ++ extra)
      = some (codes.map mk) := by
  induction codes with
  | nil => simp [decodeFixed]
  | cons u us ih =>
    simp only [List.length_cons, List.flatMap_cons, List.append_assoc, decodeFixed]
    rw [readN_append _ (leBytes_length w u)]
    dsimp only
    rw [ih fun x hx => hcode x (by simp [hx])]
    rw [leVal_leBytes_of_lt (hcode u (by simp))]
    rfl

theorem decodeStrings_strings (vals : List PValue)
    (h : ∀ v ∈ vals, ∃ s, v = PValue.vstring s ∧ s.length ≤ 1024)
    (extra : List Byte) :
    decodeStrings vals.length (vals.flatMap encodeVal ++ extra) = some vals := by
  induction vals with
  | nil => simp [decodeStrings]
  | cons v vs ih =>
    obtain ⟨s, rfl, hs⟩ := h v (by simp)
    simp only [List.length_cons, List.flatMap_cons, encodeVal, List.append_assoc,
      decodeStrings]
    rw [readN_append _ (leBytes_length 4 s.length)]
    simp only
    rw [leVal_leBytes_of_lt (by rw [pow256_4]; omega)]
    rw [if_pos (by omega)]
    rw [readN_append _ rfl]
    dsimp only
    rw [ih fun x hx => h x (by simp [hx])]
    rfl

theorem decodeColumn_encodeColumn {t : PType} (hnb : t ≠ .pbool)
    (vals : List PValue) (hwf : ∀ v ∈ vals, valOk t v) (extra : List Byte) :
    decodeColumn t vals.length (encodeColumn t vals ++ extra) = some vals := by
  cases t with
  | pbool => exact absurd rfl hnb
  | pint32 =>
    have hv : vals.flatMap encodeVal
        = (vals.map fun v => toUnsigned 32 (match v with
            | .vint32 x => x
            | _ => 0)).flatMap (leBytes 4) := by
      induction vals with
      | nil => rfl
      | cons v vs ih =>
        have hok := hwf v (by simp)
        cases v <;> simp only [valOk] at hok
        simp only [List.flatMap_cons, List.map_cons, encodeVal]
        rw [ih fun x hx => hwf x (by simp [hx])]
    simp only [decodeColumn, encodeColumn, hv]
    have hlen : vals.length = (vals.map fun v => toUnsigned 32 (match v with
        | .vint32 x => x
        | _ => 0)).length := by simp
    rw [hlen, decodeFixed_codes _ (by
      intro u hu
      simp at hu
      obtain ⟨v, hv2, rfl⟩ := hu
      rw [pow256_4]
      exact toUnsigned_lt 32 _)]
    congr 1
    rw [List.map_map]
    conv_rhs => rw [← List.map_id vals]
    apply List.map_congr_left
    intro v hvm
    have hok := hwf v hvm
    cases v <;> simp only [valOk] at hok
    simp only [Function.comp_apply, id]
    rw [fromSigned_toUnsigned (by omega) (by
      have : ((2 : Int) ^ (32 - 1)) = 2 ^ 31 := by norm_num
      omega) (by
      have : ((2 : Int) ^ (32 - 1)) = 2 ^ 31 := by norm_num
      omega)]
  | puint32 =>
    have hv : vals.flatMap encodeVal
        = (vals.map fun v => (match v with
            | .vuint32 x => x
            | _ => 0)).flatMap (leBytes 4) := by
      induction vals with
      | nil => rfl
      | cons v vs ih =>
        have hok := hwf v (by simp)
        cases v <;> simp only [valOk] at hok
        simp only [List.flatMap_cons, List.map_cons, encodeVal]
        rw [ih fun x hx => hwf x (by simp [hx])]
    simp only [decodeColumn, encodeColumn, hv]
    have hlen : vals.length = (vals.map fun v => (match v with
        | .vuint32 x => x
        | _ => 0)).length := by simp
    rw [hlen, decodeFixed_codes _ (by
      intro u hu
      simp at hu
      obtain ⟨v, hv2, rfl⟩ := hu
      have hok := hwf v hv2
      cases v <;> simp only [valOk] at hok
      rw [pow256_4]
      exact hok)]
    congr 1
    rw [List.map_map]
    conv_rhs => rw [← List.map_id vals]
    apply List.map_congr_left
    intro v hvm
    have hok := hwf v hvm
    cases v <;> simp only [valOk] at hok
    rfl
  | pint64 =>
    have hv : vals.flatMap encodeVal
        = (vals.map fun v => toUnsigned 64 (match v with
            | .vint64 x => x
            | _ => 0)).flatMap (leBytes 8) := by
      induction vals with
      | nil => rfl
      | cons v vs ih =>
        have hok := hwf v (by simp)
        cases v <;> simp only [valOk] at hok
        simp only [List.flatMap_cons, List.map_cons, encodeVal]
        rw [ih fun x hx => hwf x (by simp [hx])]
    simp only [decodeColumn, encodeColumn, hv]
    have hlen : vals.length = (vals.map fun v => toUnsigned 64 (match v with
        | .vint64 x => x
        | _ => 0)).length := by simp
    rw [hlen, decodeFixed_codes _ (by
      intro u hu
      simp at hu
      obtain ⟨v, hv2, rfl⟩ := hu
      rw [pow256_8]
      exact toUnsigned_lt 64 _)]
    congr 1
    rw [List.map_map]
    conv_rhs => rw [← List.map_id vals]
    apply List.map_congr_left
    intro v hvm
    have hok := hwf v hvm
    cases v <;> simp only [valOk] at hok
    simp only [Function.comp_apply, id]
    rw [fromSigned_toUnsigned (by omega) (by
      have : ((2 : Int) ^ (64 - 1)) = 2 ^ 63 := by norm_num
      omega) (by
      have : ((2 : Int) ^ (64 - 1)) = 2 ^ 63 := by norm_num
      omega)]
  | puint64 =>
    have hv : vals.flatMap encodeVal
        = (vals.map fun v => (match v with
            | .vuint64 x => x
            | _ => 0)).flatMap (leBytes 8) := by
      induction vals with
      | nil => rfl
      | cons v vs ih =>
        have hok := hwf v (by simp)
        cases v <;> simp only [valOk] at hok
        simp only [List.flatMap_cons, List.map_cons, encodeVal]
        rw [ih fun x hx => hwf x (by simp [hx])]
    simp only [decodeColumn, encodeColumn, hv]
    have hlen : vals.length = (vals.map fun v => (match v with
        | .vuint64 x => x
        | _ => 0)).length := by simp
    rw [hlen, decodeFixed_codes _ (by
      intro u hu
      simp at hu
      obtain ⟨v, hv2, rfl⟩ := hu
      have hok := hwf v hv2
      cases v <;> simp only [valOk] at hok
      rw [pow256_8]
      exact hok)]
    congr 1
    rw [List.map_map]
    conv_rhs => rw [← List.map_id vals]
    apply List.map_congr_left
    intro v hvm
    have hok := hwf v hvm
    cases v <;> simp only [valOk] at hok
    rfl
  | pfloat32 =>
    have hv : vals.flatMap encodeVal
        = (vals.map fun v => (match v with
            | .vfloat32 x => x
            | _ => 0)).flatMap (leBytes 4) := by
      induction vals with
      | nil => rfl
      | cons v vs ih =>
        have hok := hwf v (by simp)
        cases v <;> simp only [valOk] at hok
        simp only [List.flatMap_cons, List.map_cons, encodeVal]
        rw [ih fun x hx => hwf x (by simp [hx])]
    simp only [decodeColumn, encodeColumn, hv]
    have hlen : vals.length = (vals.map fun v => (match v with
        | .vfloat32 x => x
        | _ => 0)).length := by simp
    rw [hlen, decodeFixed_codes _ (by
      intro u hu
      simp at hu
      obtain ⟨v, hv2, rfl⟩ := hu
      have hok := hwf v hv2
      cases v <;> simp only [valOk] at hok
      rw [pow256_4]
      exact hok)]
    congr 1
    rw [List.map_map]
    conv_rhs => rw [← List.map_id vals]
    apply List.map_congr_left
    intro v hvm
    have hok := hwf v hvm
    cases v <;> simp only [valOk] at hok
    rfl
  | pstring =>
    simp only [decodeColumn, encodeColumn]
    apply decodeStrings_strings
    intro v hvm
    have hok := hwf v hvm
    cases v <;> simp only [valOk] at hok
    exact ⟨_, rfl, hok⟩

/-! ## Reading a column's pages back -/

theorem snappyEncode_length (bs : List Byte) :
    (snappyEncode bs).length = 4 + bs.length := by
  simp [snappyEncode, leBytes_length]

theorem writeLevels_length (defs : List Nat) :
    (writeLevels defs).length = 4 + defs.length := by
  simp [writeLevels, leBytes_length]

/-- Size conditions under which one page parses back: the uncompressed
payload fits the 4-byte compressed-block and level-count fields, the record
count fits the 8-byte header field. -/
def pageWF (sf : SchemaField) (i : Nat) (c : List Rec) : Prop :=
  (pagePayload sf i c).length < 2 ^ 32 ∧ c.length < 2 ^ 64

theorem doReadRequired_ge {fuel posN nRead : Nat} (out bs : List Byte)
    (hfuel : 0 < fuel) (h : posN ≤ nRead) :
    doReadRequired fuel posN nRead out bs = some (out, bs) := by
  cases fuel with
  | zero => omega
  | succ f =>
    rw [doReadRequired, if_neg (by omega)]

theorem doReadOptional_ge {fuel posN nRead : Nat} (dacc : List Nat)
    (out bs : List Byte) (hfuel : 0 < fuel) (h : posN ≤ nRead) :
    doReadOptional fuel posN nRead dacc out bs = some (dacc, out, bs) := by
  cases fuel with
  | zero => omega
  | succ f =>
    rw [doReadOptional, if_neg (by omega)]

theorem doReadRequired_pages (sf : SchemaField) (i : Nat) (cs : List (List Rec))
    (rest out : List Byte) (nRead N fuel : Nat)
    (hwf : ∀ c ∈ cs, pageWF sf i c)
    (hpos : ∀ c ∈ cs, 1 ≤ c.length)
    (hsum : nRead + (cs.map List.length).sum = N)
    (hfuel : cs.length < fuel) :
    doReadRequired fuel N nRead out ((cs.map (pageBytes sf i)).flatten ++ rest)
      = some (out ++ (cs.map (pagePayload sf i)).flatten, rest) := by
  induction cs generalizing fuel nRead out with
  | nil =>
    simp only [List.map_nil, List.flatten_nil, List.nil_append, List.sum_nil] at hsum ⊢
    rw [doReadRequired_ge out rest (by omega) (by omega)]
    simp
  | cons c ct ih =>
    have hc := hpos c (by simp)
    have hwfc := hwf c (by simp)
    obtain ⟨hpay, hcnt⟩ := hwfc
    simp only [List.map_cons, List.sum_cons] at hsum
    cases fuel with
    | zero => omega
    | succ f =>
      rw [doReadRequired, if_pos (by omega)]
      simp only [List.map_cons, List.flatten_cons, pageBytes, List.append_assoc]
      rw [parsePageHeader_bytes _ (by omega) (by
          rw [snappyEncode_length]
          omega)
        (by omega)]
      dsimp only
      rw [readN_append _ rfl]
      dsimp only
      rw [snappyDecode_encode hpay]
      dsimp only
      rw [ih (out ++ pagePayload sf i c) (nRead + c.length) f
        (fun x hx => hwf x (by simp [hx])) (fun x hx => hpos x (by simp [hx]))
        (by omega) (by simp at hfuel ⊢; omega)]
      simp

theorem doReadOptional_pages (sf : SchemaField) (i : Nat) (cs : List (List Rec))
    (rest out : List Byte) (dacc : List Nat) (nRead N fuel : Nat)
    (hrep : sf.rep = .optional)
    (hwf : ∀ c ∈ cs, pageWF sf i c)
    (hpos : ∀ c ∈ cs, 1 ≤ c.length)
    (hsum : nRead + (cs.map List.length).sum = N)
    (hfuel : cs.length < fuel) :
    doReadOptional fuel N nRead dacc out ((cs.map (pageBytes sf i)).flatten ++ rest)
      = some (dacc ++ (cs.map fun c => (colifyBuf sf i c).defs).flatten,
          out ++ (cs.map fun c => encodeColumn sf.typ (colifyBuf sf i c).vals).flatten,
          rest) := by
  induction cs generalizing fuel nRead out dacc with
  | nil =>
    simp only [List.map_nil, List.flatten_nil, List.nil_append, List.sum_nil] at hsum ⊢
    rw [doReadOptional_ge dacc out rest (by omega) (by omega)]
    simp
  | cons c ct ih =>
    have hc := hpos c (by simp)
    have hwfc := hwf c (by simp)
    obtain ⟨hpay, hcnt⟩ := hwfc
    simp only [List.map_cons, List.sum_cons] at hsum
    cases fuel with
    | zero => omega
    | succ f =>
      rw [doReadOptional, if_pos (by omega)]
      simp only [List.map_cons, List.flatten_cons, pageBytes, List.append_assoc]
      rw [parsePageHeader_bytes _ (by omega) (by
          rw [snappyEncode_length]
          omega)
        (by omega)]
      dsimp only
      rw [readN_append _ rfl]
      dsimp only
      rw [snappyDecode_encode hpay]
      dsimp only
      have hpp : pagePayload sf i c
          = writeLevels (colifyBuf sf i c).defs
            ++ encodeColumn sf.typ (colifyBuf sf i c).vals := by
        simp [pagePayload, hrep]
      have hdlen : (colifyBuf sf i c).defs.length < 2 ^ 32 := by
        rw [hpp] at hpay
        simp only [List.length_append, writeLevels_length] at hpay
        omega
      rw [hpp, readLevels_writeLevels _ hdlen]
      dsimp only
      have hdrop : (writeLevels (colifyBuf sf i c).defs
            ++ encodeColumn sf.typ (colifyBuf sf i c).vals).drop
          (4 + (colifyBuf sf i c).defs.length)
          = encodeColumn sf.typ (colifyBuf sf i c).vals := by
        rw [List.drop_left' (writeLevels_length _)]
      rw [hdrop]
      rw [ih (out ++ encodeColumn sf.typ (colifyBuf sf i c).vals)
        (dacc ++ (colifyBuf sf i c).defs) (nRead + c.length) f
        (fun x hx => hwf x (by simp [hx])) (fun x hx => hpos x (by simp [hx]))
        (by omega) (by simp at hfuel ⊢; omega)]
      simp

/-- The count of `1` levels over the indicator map is the number of present
values. -/
theorem nValsOf_map (col : List (Option PValue)) :
    nValsOf (col.map fun o => if o.isSome then 1 else 0)
      = (col.filterMap id).length := by
  induction col with
  | nil => rfl
  | cons o ct ih =>
    cases o with
    | none => simpa [nValsOf, List.filter] using ih
    | some v => simpa [nValsOf, List.filter] using ih

theorem get?_append_cons (pre : List Nat) (d : Nat) (rest : List Nat) :
    (pre ++ d :: rest).get? pre.length = some d := by
  rw [List.get?_eq_getElem?, List.getElem?_append_right (le_refl _)]
  simp

theorem decodeStringsOpt_col (col : List (Option PValue)) (pre : List Nat)
    (extra : List Byte)
    (hstr : ∀ o ∈ col, ∀ v, o = some v → ∃ s, v = PValue.vstring s ∧ s.length ≤ 1024) :
    decodeStringsOpt (pre ++ col.map fun o => if o.isSome then 1 else 0)
        pre.length col.length
        ((col.filterMap id).flatMap encodeVal ++ extra)
      = some (col.filterMap id) := by
  induction col generalizing pre with
  | nil => simp [decodeStringsOpt]
  | cons o ct ih =>
    cases o with
    | none =>
      have hind : (if (none : Option PValue).isSome then 1 else 0) = 0 := rfl
      have hfm : (none :: ct).filterMap id = ct.filterMap id :=
        List.filterMap_cons_none rfl
      simp only [List.map_cons, hind, List.length_cons, decodeStringsOpt,
        get?_append_cons, hfm]
      rw [if_pos trivial]
      have hpre : pre.length + 1 = (pre ++ [0]).length := by simp
      have hjoin : pre ++ 0 :: (ct.map fun o => if o.isSome then 1 else 0)
          = (pre ++ [0]) ++ (ct.map fun o => if o.isSome then 1 else 0) :=
        List.append_cons pre 0 _
      rw [hpre, hjoin, ih (pre ++ [0]) fun o ho v hv => hstr o (by simp [ho]) v hv]
    | some v =>
      obtain ⟨s, rfl, hs⟩ := hstr (some v) (by simp) v rfl
      have hind : (if (some (PValue.vstring s)).isSome then 1 else 0) = 1 := rfl
      have hfm : (some (PValue.vstring s) :: ct).filterMap id
          = PValue.vstring s :: ct.filterMap id :=
        List.filterMap_cons_some rfl
      simp only [List.map_cons, hind, List.length_cons, decodeStringsOpt,
        get?_append_cons, hfm, List.flatMap_cons, encodeVal, List.append_assoc]
      rw [if_neg (by omega)]
      rw [readN_append _ (leBytes_length 4 s.length)]
      dsimp only
      rw [leVal_leBytes_of_lt (by rw [pow256_4]; omega)]
      rw [if_pos (by omega)]
      rw [readN_append _ rfl]
      dsimp only
      have hpre : pre.length + 1 = (pre ++ [1]).length := by simp
      have hjoin : pre ++ 1 :: (ct.map fun o => if o.isSome then 1 else 0)
          = (pre ++ [1]) ++ (ct.map fun o => if o.isSome then 1 else 0) :=
        List.append_cons pre 1 _
      rw [hpre, hjoin, ih (pre ++ [1]) fun o ho v hv => hstr o (by simp [ho]) v hv]
      rfl

theorem flatten_map_of_map (cs : List (List α)) (f : α → β) :
    (cs.map fun c => c.map f).flatten = cs.flatten.map f := by
  induction cs with
  | nil => rfl
  | cons c ct ih =>
    simp only [List.map_cons, List.flatten_cons, ih, List.map_append]

theorem flatten_map_of_filterMap (cs : List (List α)) (f : α → Option β) :
    (cs.map fun c => c.filterMap f).flatten = cs.flatten.filterMap f := by
  induction cs with
  | nil => rfl
  | cons c ct ih =>
    simp only [List.map_cons, List.flatten_cons, ih, List.filterMap_append]

theorem flatten_map_of_flatMap (cs : List (List α)) (f : α → List β) :
    (cs.map fun c => c.flatMap f).flatten = cs.flatten.flatMap f := by
  induction cs with
  | nil => rfl
  | cons c ct ih =>
    simp only [List.map_cons, List.flatten_cons, ih, List.flatMap_append]

theorem encodeColumn_flatten {t : PType} (h : t ≠ .pbool) (cs : List (List PValue)) :
    (cs.map (encodeColumn t)).flatten = encodeColumn t cs.flatten := by
  cases t with
  | pbool => exact absurd rfl h
  | pint32 => exact flatten_map_of_flatMap cs encodeVal
  | puint32 => exact flatten_map_of_flatMap cs encodeVal
  | pint64 => exact flatten_map_of_flatMap cs encodeVal
  | puint64 => exact flatten_map_of_flatMap cs encodeVal
  | pfloat32 => exact flatten_map_of_flatMap cs encodeVal
  | pstring => exact flatten_map_of_flatMap cs encodeVal

theorem colifyBuf_vals_req {sf : SchemaField} (h : sf.rep = .required) (i : Nat)
    (c : List Rec) :
    (colifyBuf sf i c).vals = c.map fun r => (r.getD i none).getD junkValue := by
  simp [colifyBuf, h]

theorem colifyBuf_vals_opt {sf : SchemaField} (h : sf.rep = .optional) (i : Nat)
    (c : List Rec) :
    (colifyBuf sf i c).vals = c.filterMap fun r => r.getD i none := by
  simp [colifyBuf, h]

theorem colifyBuf_defs_opt {sf : SchemaField} (h : sf.rep = .optional) (i : Nat)
    (c : List Rec) :
    (colifyBuf sf i c).defs
      = c.map fun r => if (r.getD i none).isSome then 1 else 0 := by
  simp [colifyBuf, h]

theorem length_le_flatten_length (L : List (List α))
    (h : ∀ x ∈ L, 1 ≤ x.length) : L.length ≤ L.flatten.length := by
  induction L with
  | nil => simp
  | cons x xs ih =>
    have hx := h x (by simp)
    have := ih fun y hy => h y (by simp [hy])
    simp only [List.length_cons, List.flatten_cons, List.length_append]
    omega

theorem colifyBuf_defs_req {sf : SchemaField} (h : sf.rep = .required) (i : Nat)
    (c : List Rec) : (colifyBuf sf i c).defs = [] := by
  simp [colifyBuf, h]

theorem pageBytes_len_pos (sf : SchemaField) (i : Nat) (c : List Rec) :
    1 ≤ (pageBytes sf i c).length := by
  simp only [pageBytes, pageHeaderBytes, List.length_append, leBytes_length]
  omega

theorem fuel_enough (sf : SchemaField) (i : Nat) (cs : List (List Rec))
    (rest : List Byte) :
    cs.length < ((cs.map (pageBytes sf i)).flatten ++ rest).length + 1 := by
  have h1 : cs.length ≤ (cs.map (pageBytes sf i)).flatten.length := by
    have := length_le_flatten_length (cs.map (pageBytes sf i)) (by
      intro x hx
      simp at hx
      obtain ⟨c, hc, rfl⟩ := hx
      exact pageBytes_len_pos sf i c)
    simpa using this
  simp only [List.length_append]
  omega

/-- One required column read over all its pages restores exactly the
buffered column and stops exactly at the column boundary. -/
theorem fieldRead_column_req (sf : SchemaField) (i : Nat) (cs : List (List Rec))
    (rest : List Byte) (s0 : Nat)
    (hrep : sf.rep = .required) (htyp : sf.typ ≠ .pbool)
    (hwf : ∀ c ∈ cs, pageWF sf i c)
    (hpos : ∀ c ∈ cs, 1 ≤ c.length)
    (hvals : ∀ v ∈ (colifyBuf sf i cs.flatten).vals, valOk sf.typ v) :
    fieldRead sf emptyBuf ((cs.map (pageBytes sf i)).flatten ++ rest)
        ⟨0, s0, (cs.map List.length).sum⟩
      = some (colifyBuf sf i cs.flatten, rest) := by
  simp only [fieldRead, hrep]
  rw [doReadRequired_pages sf i cs rest [] 0 _ _ hwf hpos (by omega)
    (fuel_enough sf i cs rest)]
  dsimp only
  have hpay : (cs.map (pagePayload sf i)).flatten
      = encodeColumn sf.typ (colifyBuf sf i cs.flatten).vals := by
    have e1 : cs.map (pagePayload sf i)
        = (cs.map fun c => c.map fun r => (r.getD i none).getD junkValue).map
            (encodeColumn sf.typ) := by
      rw [List.map_map]
      apply List.map_congr_left
      intro c hc
      simp only [Function.comp_apply, pagePayload, hrep, colifyBuf_vals_req hrep]
    rw [e1, encodeColumn_flatten htyp, flatten_map_of_map,
      ← colifyBuf_vals_req hrep]
  have hn : (cs.map List.length).sum = (colifyBuf sf i cs.flatten).vals.length := by
    rw [colifyBuf_vals_req hrep, List.length_map, List.length_flatten]
  rw [List.nil_append, hpay, hn]
  have hdec := decodeColumn_encodeColumn htyp (colifyBuf sf i cs.flatten).vals hvals []
  rw [List.append_nil] at hdec
  rw [hdec]
  simp only [Option.map_some']
  have hfin : ({ emptyBuf with vals := emptyBuf.vals ++ (colifyBuf sf i cs.flatten).vals }
        : FieldBuf)
      = colifyBuf sf i cs.flatten := by
    have hd := colifyBuf_defs_req hrep i cs.flatten
    cases hcb : colifyBuf sf i cs.flatten with
    | mk v d =>
      rw [hcb] at hd
      change d = [] at hd
      subst hd
      simp [emptyBuf]
  rw [hfin]

/-- One optional column read over all its pages restores exactly the
buffered column (present values and definition levels). -/
theorem fieldRead_column_opt (sf : SchemaField) (i : Nat) (cs : List (List Rec))
    (rest : List Byte) (s0 : Nat)
    (hrep : sf.rep = .optional) (htyp : sf.typ ≠ .pbool)
    (hwf : ∀ c ∈ cs, pageWF sf i c)
    (hpos : ∀ c ∈ cs, 1 ≤ c.length)
    (hvals : ∀ v ∈ (colifyBuf sf i cs.flatten).vals, valOk sf.typ v) :
    fieldRead sf emptyBuf ((cs.map (pageBytes sf i)).flatten ++ rest)
        ⟨0, s0, (cs.map List.length).sum⟩
      = some (colifyBuf sf i cs.flatten, rest) := by
  simp only [fieldRead, hrep, emptyBuf]
  rw [doReadOptional_pages sf i cs rest [] [] 0 _ _ hrep hwf hpos (by omega)
    (fuel_enough sf i cs rest)]
  dsimp only
  have hdefs : (cs.map fun c => (colifyBuf sf i c).defs).flatten
      = (colifyBuf sf i cs.flatten).defs := by
    have e1 : (cs.map fun c => (colifyBuf sf i c).defs)
        = cs.map fun c => c.map fun r => if (r.getD i none).isSome then 1 else 0 := by
      apply List.map_congr_left
      intro c hc
      rw [colifyBuf_defs_opt hrep]
    rw [e1, flatten_map_of_map, ← colifyBuf_defs_opt hrep]
  have hpay : (cs.map fun c => encodeColumn sf.typ (colifyBuf sf i c).vals).flatten
      = encodeColumn sf.typ (colifyBuf sf i cs.flatten).vals := by
    have e1 : (cs.map fun c => encodeColumn sf.typ (colifyBuf sf i c).vals)
        = (cs.map fun c => c.filterMap fun r => r.getD i none).map
            (encodeColumn sf.typ) := by
      rw [List.map_map]
      apply List.map_congr_left
      intro c hc
      simp only [Function.comp_apply, colifyBuf_vals_opt hrep]
    rw [e1, encodeColumn_flatten htyp, flatten_map_of_filterMap,
      ← colifyBuf_vals_opt hrep]
  rw [List.nil_append, List.nil_append, hdefs, hpay]
  have hcolmap : (colifyBuf sf i cs.flatten).defs
      = (cs.flatten.map fun r => r.getD i none).map
          fun o => if o.isSome then 1 else 0 := by
    rw [colifyBuf_defs_opt hrep, List.map_map]
    rfl
  have hcolvals : (colifyBuf sf i cs.flatten).vals
      = (cs.flatten.map fun r => r.getD i none).filterMap id := by
    rw [colifyBuf_vals_opt hrep, List.filterMap_map]
    rfl
  have hlen : (cs.map List.length).sum
      = (cs.flatten.map fun r => r.getD i none).length := by
    rw [List.length_map, List.length_flatten]
  have hfin : ∀ vs, vs = (colifyBuf sf i cs.flatten).vals →
      (⟨[] ++ vs, (colifyBuf sf i cs.flatten).defs⟩ : FieldBuf)
        = colifyBuf sf i cs.flatten := by
    intro vs hvs
    subst hvs
    simp only [List.nil_append]
  cases htc : sf.typ with
  | pbool => exact absurd htc htyp
  | pstring =>
    have hstr : ∀ o ∈ cs.flatten.map fun r => r.getD i none, ∀ v, o = some v →
        ∃ st, v = PValue.vstring st ∧ st.length ≤ 1024 := by
      intro o ho v hv
      subst hv
      have hvm : v ∈ (colifyBuf sf i cs.flatten).vals := by
        rw [hcolvals]
        exact List.mem_filterMap.mpr ⟨some v, ho, rfl⟩
      have hok := hvals v hvm
      rw [htc] at hok
      cases v <;> simp only [valOk] at hok
      exact ⟨_, rfl, hok⟩
    have hd := decodeStringsOpt_col (cs.flatten.map fun r => r.getD i none) [] [] hstr
    simp only [List.nil_append, List.length_nil, List.append_nil] at hd
    have henc : encodeColumn PType.pstring (colifyBuf sf i cs.flatten).vals
        = ((cs.flatten.map fun r => r.getD i none).filterMap id).flatMap encodeVal := by
      rw [hcolvals]
      rfl
    simp only [List.length_nil]
    rw [hcolmap, hlen, henc, hd]
    simp only [Option.map_some']
    rw [← hcolmap]
    rw [hfin _ (by rw [hcolvals])]
  | pint32 =>
    have hdec := decodeColumn_encodeColumn htyp (colifyBuf sf i cs.flatten).vals hvals []
    rw [List.append_nil, htc] at hdec
    simp only [List.length_nil]
    rw [hcolmap, nValsOf_map, Nat.sub_zero, ← hcolvals, hdec]
    simp only [Option.map_some']
    rw [← hcolmap]
    rw [hfin _ rfl]
  | puint32 =>
    have hdec := decodeColumn_encodeColumn htyp (colifyBuf sf i cs.flatten).vals hvals []
    rw [List.append_nil, htc] at hdec
    simp only [List.length_nil]
    rw [hcolmap, nValsOf_map, Nat.sub_zero, ← hcolvals, hdec]
    simp only [Option.map_some']
    rw [← hcolmap]
    rw [hfin _ rfl]
  | pint64 =>
    have hdec := decodeColumn_encodeColumn htyp (colifyBuf sf i cs.flatten).vals hvals []
    rw [List.append_nil, htc] at hdec
    simp only [List.length_nil]
    rw [hcolmap, nValsOf_map, Nat.sub_zero, ← hcolvals, hdec]
    simp only [Option.map_some']
    rw [← hcolmap]
    rw [hfin _ rfl]
  | puint64 =>
    have hdec := decodeColumn_encodeColumn htyp (colifyBuf sf i cs.flatten).vals hvals []
    rw [List.append_nil, htc] at hdec
    simp only [List.length_nil]
    rw [hcolmap, nValsOf_map, Nat.sub_zero, ← hcolvals, hdec]
    simp only [Option.map_some']
    rw [← hcolmap]
    rw [hfin _ rfl]
  | pfloat32 =>
    have hdec := decodeColumn_encodeColumn htyp (colifyBuf sf i cs.flatten).vals hvals []
    rw [List.append_nil, htc] at hdec
    simp only [List.length_nil]
    rw [hcolmap, nValsOf_map, Nat.sub_zero, ← hcolvals, hdec]
    simp only [Option.map_some']
    rw [← hcolmap]
    rw [hfin _ rfl]

/-! ## The reader constructor walks the footer -/

theorem colifyBuf_nil (sf : SchemaField) (i : Nat) :
    colifyBuf sf i [] = emptyBuf := by
  cases h : sf.rep <;> simp [colifyBuf, h, emptyBuf]

/-- A column whose position carries zero values reads nothing and leaves
the stream untouched. -/
theorem fieldRead_zeroN (sf : SchemaField) (bs : List Byte) (o s : Nat) :
    fieldRead sf emptyBuf bs ⟨o, s, 0⟩ = some (emptyBuf, bs) := by
  cases hrep : sf.rep with
  | required =>
    simp only [fieldRead, hrep]
    rw [doReadRequired_ge [] bs (by omega) (by omega)]
    dsimp only
    cases htc : sf.typ <;>
      simp [decodeColumn, decodeFixed, decodeStrings, getBools, emptyBuf]
  | optional =>
    simp only [fieldRead, hrep, emptyBuf]
    rw [doReadOptional_ge [] [] bs (by omega) (by omega)]
    dsimp only
    cases htc : sf.typ <;>
      simp [decodeColumn, decodeFixed, decodeStrings, decodeStringsOpt, getBools,
        nValsOf, emptyBuf]

theorem fieldIndex_of_nodup (schema : List SchemaField) (i : Nat)
    (hi : i < schema.length) (hnd : (schema.map SchemaField.name).Nodup) :
    fieldIndex schema (schema.getD i dfltField).name = some i := by
  induction schema generalizing i with
  | nil => simp at hi
  | cons sf st ih =>
    cases i with
    | zero => simp [fieldIndex]
    | succ i =>
      have hndc : (∀ x ∈ st, ¬x.name = sf.name)
          ∧ (List.map SchemaField.name st).Nodup := by
        simpa using hnd
      have hmem : (st.getD i dfltField) ∈ st := by
        have : i < st.length := by simpa using hi
        rw [List.getD_eq_getElem?_getD, List.getElem?_eq_getElem this]
        exact List.getElem_mem this
      have hne : sf.name ≠ ((sf :: st).getD (i + 1) dfltField).name := by
        simp only [List.getD_cons_succ]
        intro hcon
        exact hndc.1 _ hmem hcon.symm
      simp only [fieldIndex, List.getD_cons_succ]
      rw [if_neg (by
        intro hcon
        exact hne (by simp [hcon]))]
      rw [ih i (by simpa using hi) hndc.2]
      rfl

theorem flushedChunks_names (st : List SchemaField) (k : Nat) (cs : List (List Rec)) :
    (flushedChunks st k cs).map Chunk.name = st.map SchemaField.name := by
  induction st generalizing k with
  | nil => rfl
  | cons sf st2 ih => simp [flushedChunks, mergedChunk, ih]

theorem flushedChunks_filter_not_mem (st : List SchemaField) (k : Nat)
    (cs : List (List Rec)) (name : ColName)
    (h : ∀ sf ∈ st, sf.name ≠ name) :
    (flushedChunks st k cs).filter (fun ch => ch.name = name) = [] := by
  induction st generalizing k with
  | nil => rfl
  | cons sf st2 ih =>
    simp only [flushedChunks, List.filter_cons]
    rw [if_neg (by
      simp only [mergedChunk, decide_eq_true_eq]
      exact h sf (by simp))]
    exact ih (k + 1) fun x hx => h x (by simp [hx])

theorem flushedChunks_filter (st : List SchemaField) (k j : Nat)
    (cs : List (List Rec)) (hj : j < st.length)
    (hnd : (st.map SchemaField.name).Nodup) :
    (flushedChunks st k cs).filter (fun ch => ch.name = (st.getD j dfltField).name)
      = [mergedChunk (st.getD j dfltField) (k + j) cs] := by
  induction st generalizing k j with
  | nil => simp at hj
  | cons sf st2 ih =>
    have hndc : (∀ x ∈ st2, ¬x.name = sf.name)
        ∧ (List.map SchemaField.name st2).Nodup := by
      simpa using hnd
    cases j with
    | zero =>
      simp only [flushedChunks, List.filter_cons, List.getD_cons_zero]
      rw [if_pos (by simp [mergedChunk])]
      rw [flushedChunks_filter_not_mem st2 (k + 1) cs sf.name (by
        intro x hx hcon
        exact hndc.1 x hx hcon)]
      simp
    | succ j =>
      have hmem : (st2.getD j dfltField) ∈ st2 := by
        have : j < st2.length := by simpa using hj
        rw [List.getD_eq_getElem?_getD, List.getElem?_eq_getElem this]
        exact List.getElem_mem this
      simp only [flushedChunks, List.filter_cons, List.getD_cons_succ]
      rw [if_neg (by
        simp only [mergedChunk, decide_eq_true_eq]
        intro hcon
        exact hndc.1 _ hmem hcon.symm)]
      rw [ih (k + 1) j (by simpa using hj) hndc.2]
      have harith : k + 1 + j = k + (j + 1) := by omega
      rw [harith]

theorem offsetsFor_flushed (schema : List SchemaField) (j : Nat)
    (cs : List (List Rec)) (hj : j < schema.length)
    (hnd : (schema.map SchemaField.name).Nodup) :
    offsetsFor [flushedChunks schema 0 cs, []] (schema.getD j dfltField).name
      = [(mergedChunk (schema.getD j dfltField) j cs).pos] := by
  unfold offsetsFor
  simp only [List.flatten, List.append_nil]
  have hf := flushedChunks_filter schema 0 j cs hj hnd
  rw [Nat.zero_add] at hf
  rw [hf]
  rfl

theorem getD_set_self (l : List α) (i : Nat) (x d : α) (h : i < l.length) :
    (l.set i x).getD i d = x := by
  rw [List.getD_eq_getElem?_getD, List.getElem?_set_self (by omega)]
  rfl

theorem getD_set_ne (l : List α) (i k : Nat) (x d : α) (h : i ≠ k) :
    (l.set i x).getD k d = l.getD k d := by
  rw [List.getD_eq_getElem?_getD, List.getElem?_set_ne h, ← List.getD_eq_getElem?_getD]

theorem colifyBufs_length (st : List SchemaField) (i : Nat) (c : List Rec) :
    (colifyBufs st i c).length = st.length := by
  induction st generalizing i with
  | nil => rfl
  | cons sf st2 ih => simp [colifyBufs, ih]

theorem getD_map_const (st : List SchemaField) (k : Nat) :
    (st.map fun _ => emptyBuf).getD k emptyBuf = emptyBuf := by
  induction st generalizing k with
  | nil => simp
  | cons sf st2 ih =>
    cases k with
    | zero => simp
    | succ k => simpa using ih k

/-- The whole inner column loop over one flushed row group: every column is
looked up at its schema index, read over its pages, and its buffer filled;
the stream advances column by column (or, with no records, not at all). -/
theorem readCols_flushed (schema : List SchemaField) (R : List Rec)
    (cs : List (List Rec)) (tail : List Byte)
    (hnd : (schema.map SchemaField.name).Nodup)
    (hflat : cs.flatten = R)
    (hzero : R = [] → cs = [[]])
    (hposc : R ≠ [] → ∀ c ∈ cs, 1 ≤ c.length)
    (hwf : ∀ j, j < schema.length → ∀ c ∈ cs, pageWF (schema.getD j dfltField) j c)
    (hvals : ∀ j, j < schema.length →
      ∀ v ∈ (colifyBuf (schema.getD j dfltField) j R).vals,
        valOk (schema.getD j dfltField).typ v)
    (hnb : ∀ sf ∈ schema, sf.typ ≠ .pbool) :
    ∀ (st : List SchemaField) (i : Nat) (bufs : List FieldBuf) (bs : List Byte),
      st = schema.drop i →
      bufs.length = schema.length →
      (∀ k, k < schema.length → bufs.getD k emptyBuf
        = if k < i then colifyBuf (schema.getD k dfltField) k R else emptyBuf) →
      bs = (if R = [] then layoutBytes schema 0 cs else layoutBytes st i cs) ++ tail →
      ∃ bufs2,
        readCols schema [flushedChunks schema 0 cs, []] 0 (flushedChunks st i cs)
            bufs bs
          = .ok (bufs2,
              (if R = [] then layoutBytes schema 0 cs else []) ++ tail)
        ∧ bufs2.length = schema.length
        ∧ ∀ k, k < schema.length →
            bufs2.getD k emptyBuf = colifyBuf (schema.getD k dfltField) k R := by
  intro st
  induction st with
  | nil =>
    intro i bufs bs hst hblen hbk hbs
    refine ⟨bufs, ?_, hblen, ?_⟩
    · simp only [flushedChunks, readCols]
      have hi : schema.length ≤ i := by
        have := congrArg List.length hst
        simp at this
        omega
      rw [hbs]
      by_cases hR : R = []
      · simp [hR]
      · simp only [if_neg hR]
        rfl
    · intro k hk
      have hi : schema.length ≤ i := by
        have := congrArg List.length hst
        simp at this
        omega
      have := hbk k hk
      rw [if_pos (by omega)] at this
      exact this
  | cons sf st2 ih =>
    intro i bufs bs hst hblen hbk hbs
    have hlen : i < schema.length := by
      have := congrArg List.length hst
      simp at this
      omega
    have hsf : schema.getD i dfltField = sf := by
      have h0 : (schema.drop i)[0]? = schema[i]? := by
        rw [List.getElem?_drop, Nat.add_zero]
      rw [← hst] at h0
      simp at h0
      simp [List.getD_eq_getElem?_getD, ← h0]
    have hst2 : st2 = schema.drop (i + 1) := by
      have h1 := List.drop_drop 1 i schema
      rw [← hst] at h1
      simp at h1
      exact h1
    simp only [flushedChunks, readCols]
    have hname : (mergedChunk sf i cs).name = (schema.getD i dfltField).name := by
      rw [hsf]
      rfl
    rw [hname, fieldIndex_of_nodup schema i hlen hnd]
    dsimp only
    rw [offsetsFor_flushed schema i cs hlen hnd]
    rw [if_neg (by simp)]
    simp only [List.get?_eq_getElem?, List.getElem?_cons_zero]
    have hbufi : bufs.getD i emptyBuf = emptyBuf := by
      have := hbk i hlen
      rw [if_neg (by omega)] at this
      exact this
    rw [hbufi]
    by_cases hR : R = []
    · have hcs : cs = [[]] := hzero hR
      have hnval : (mergedChunk (schema.getD i dfltField) i cs).pos.n = 0 := by
        simp [mergedChunk, hcs]
      have hpos0 : (mergedChunk (schema.getD i dfltField) i cs).pos
          = ⟨0, (mergedChunk (schema.getD i dfltField) i cs).pos.compressedSize, 0⟩ := by
        cases hmc : (mergedChunk (schema.getD i dfltField) i cs).pos with
        | mk o c n =>
          rw [hmc] at hnval
          change n = 0 at hnval
          simp only [mergedChunk] at hmc ⊢
          cases hmc
          simp [hnval]
      rw [hpos0, fieldRead_zeroN]
      dsimp only
      have hext := ih (i + 1) (bufs.set i emptyBuf) bs hst2 (by simp [hblen])
        (by
          intro k hk
          by_cases hik : i = k
          · subst hik
            rw [getD_set_self _ _ _ _ (by omega), if_pos (by omega), hR,
              colifyBuf_nil]
          · rw [getD_set_ne _ _ _ _ _ hik, hbk k hk]
            by_cases hki : k < i
            · rw [if_pos hki, if_pos (by omega)]
            · rw [if_neg hki, if_neg (by omega)])
        (by rw [hbs, if_pos hR, if_pos hR])
      exact hext
    · have hpos1 : ∀ c ∈ cs, 1 ≤ c.length := hposc hR
      have hmpos : (mergedChunk (schema.getD i dfltField) i cs).pos
          = ⟨0, (cs.map fun c =>
              (snappyEncode (pagePayload (schema.getD i dfltField) i c)).length).sum,
            (cs.map List.length).sum⟩ := by
        simp [mergedChunk]
      have hbs2 : bs = (cs.map (pageBytes (schema.getD i dfltField) i)).flatten
          ++ (layoutBytes st2 (i + 1) cs ++ tail) := by
        rw [hbs, if_neg hR]
        have hexp : layoutBytes (sf :: st2) i cs
            = (cs.map (pageBytes sf i)).flatten ++ layoutBytes st2 (i + 1) cs := rfl
        rw [hexp, ← hsf, List.append_assoc]
      rw [hmpos, hbs2]
      have hvalsi : ∀ v ∈ (colifyBuf (schema.getD i dfltField) i cs.flatten).vals,
          valOk (schema.getD i dfltField).typ v := by
        rw [hflat]
        exact hvals i hlen
      have hnbi : (schema.getD i dfltField).typ ≠ .pbool := by
        rw [hsf]
        apply hnb
        have hm : sf ∈ schema.drop i := by
          rw [← hst]
          simp
        exact List.mem_of_mem_drop hm
      have hread : fieldRead (schema.getD i dfltField) emptyBuf
          ((cs.map (pageBytes (schema.getD i dfltField) i)).flatten
            ++ (layoutBytes st2 (i + 1) cs ++ tail))
          ⟨0, (cs.map fun c =>
              (snappyEncode (pagePayload (schema.getD i dfltField) i c)).length).sum,
            (cs.map List.length).sum⟩
          = some (colifyBuf (schema.getD i dfltField) i cs.flatten,
              layoutBytes st2 (i + 1) cs ++ tail) := by
        cases hrep : (schema.getD i dfltField).rep with
        | required =>
          exact fieldRead_column_req _ i cs _ _ hrep hnbi (hwf i hlen) hpos1 hvalsi
        | optional =>
          exact fieldRead_column_opt _ i cs _ _ hrep hnbi (hwf i hlen) hpos1 hvalsi
      rw [hread]
      dsimp only
      have hext := ih (i + 1)
        (bufs.set i (colifyBuf (schema.getD i dfltField) i cs.flatten))
        (layoutBytes st2 (i + 1) cs ++ tail) hst2 (by simpa using hblen)
        (by
          intro k hk
          by_cases hik : i = k
          · subst hik
            rw [getD_set_self _ _ _ _ (by omega), if_pos (by omega), hflat]
          · rw [getD_set_ne _ _ _ _ _ hik, hbk k hk]
            by_cases hki : k < i
            · rw [if_pos hki, if_pos (by omega)]
            · rw [if_neg hki, if_neg (by omega)])
        (by rw [if_neg hR])
      exact hext

theorem magic_length : magic.length = 4 := rfl

theorem rowsOf_flushed (schema : List SchemaField) (hne : schema ≠ [])
    (cs : List (List Rec)) :
    rowsOf [flushedChunks schema 0 cs, []] = cs.flatten.length := by
  cases schema with
  | nil => exact absurd rfl hne
  | cons sf st =>
    simp only [rowsOf, flushedChunks, List.map_cons, List.head?_cons,
      Option.map_some', Option.getD_some, List.map_nil, List.head?_nil,
      Option.map_none', Option.getD_none, List.sum_cons, List.sum_nil,
      mergedChunk]
    rw [List.length_flatten]
    omega

theorem eq_of_getD {l1 l2 : List α} (d : α) (hlen : l1.length = l2.length)
    (h : ∀ k, k < l1.length → l1.getD k d = l2.getD k d) : l1 = l2 := by
  apply List.ext_getElem hlen
  intro k h1 h2
  have hk := h k h1
  rw [List.getD_eq_getElem?_getD, List.getD_eq_getElem?_getD,
    List.getElem?_eq_getElem h1, List.getElem?_eq_getElem h2] at hk
  simpa using hk

/-- Size conditions making the whole written file parse back. -/
theorem newParquetReader_writeFile (schema : List SchemaField) (R : List Rec)
    (P : Nat) (hP : 1 ≤ P)
    (hne : schema ≠ [])
    (hnd : (schema.map SchemaField.name).Nodup)
    (hnb : ∀ sf ∈ schema, sf.typ ≠ .pbool)
    (hwfp : ∀ j, j < schema.length → ∀ c ∈ chunksP P R,
      pageWF (schema.getD j dfltField) j c)
    (hvals : ∀ j, j < schema.length →
      ∀ v ∈ (colifyBuf (schema.getD j dfltField) j R).vals,
        valOk (schema.getD j dfltField).typ v)
    (hfwf : footerWF [flushedChunks schema 0 (chunksP P R), []])
    (hflen : (serFooter [flushedChunks schema 0 (chunksP P R), []]).length < 2 ^ 32) :
    newParquetReader schema (writeFile schema P R).out
      = .ok ⟨colifyBufs schema 0 R, R.length, 0⟩ := by
  have hcsflat : (chunksP P R).flatten = R := by
    rw [chunksP_eq_splitChunks hP]
    exact splitChunks_flatten P R
  have hzero : R = [] → chunksP P R = [[]] := by
    intro h
    rw [chunksP_eq_splitChunks hP, h, splitChunks_nil]
  have hposc : R ≠ [] → ∀ c ∈ chunksP P R, 1 ≤ c.length := by
    intro h
    rw [chunksP_eq_splitChunks hP]
    exact splitChunks_pos R h
  rw [writeFile_spec schema hP R hnd]
  unfold newParquetReader
  have hout : magic ++ layoutBytes schema 0 (chunksP P R)
        ++ serFooter [flushedChunks schema 0 (chunksP P R), []]
        ++ leBytes 4 (serFooter [flushedChunks schema 0 (chunksP P R), []]).length
        ++ magic
      = (magic ++ layoutBytes schema 0 (chunksP P R))
        ++ serFooter [flushedChunks schema 0 (chunksP P R), []]
        ++ leBytes 4 (serFooter [flushedChunks schema 0 (chunksP P R), []]).length
        ++ magic := by
    simp [List.append_assoc]
  rw [hout, readFooter_of_layout magic_length hflen (parseFooter_serFooter hfwf)]
  have hdrop : ((magic ++ layoutBytes schema 0 (chunksP P R))
        ++ serFooter [flushedChunks schema 0 (chunksP P R), []]
        ++ leBytes 4 (serFooter [flushedChunks schema 0 (chunksP P R), []]).length
        ++ magic).drop 4
      = layoutBytes schema 0 (chunksP P R)
        ++ (serFooter [flushedChunks schema 0 (chunksP P R), []]
          ++ (leBytes 4 (serFooter [flushedChunks schema 0 (chunksP P R), []]).length
            ++ magic)) := by
    rw [List.append_assoc, List.append_assoc, List.append_assoc,
      List.drop_append_of_le_length (by rw [magic_length]),
      List.drop_of_length_le (by rw [magic_length])]
    simp [List.append_assoc]
  rw [hdrop]
  obtain ⟨bufs2, hloop, hlen2, hk2⟩ := readCols_flushed schema R (chunksP P R)
    (serFooter [flushedChunks schema 0 (chunksP P R), []]
      ++ (leBytes 4 (serFooter [flushedChunks schema 0 (chunksP P R), []]).length
        ++ magic))
    hnd hcsflat hzero hposc hwfp hvals hnb schema 0
    (schema.map fun _ => emptyBuf)
    (layoutBytes schema 0 (chunksP P R)
      ++ (serFooter [flushedChunks schema 0 (chunksP P R), []]
        ++ (leBytes 4 (serFooter [flushedChunks schema 0 (chunksP P R), []]).length
          ++ magic)))
    (by simp) (by simp)
    (by
      intro k hk
      rw [getD_map_const]
      rw [if_neg (by omega)])
    (by rw [ite_self])
  simp only [readRowGroupsLoop]
  rw [hloop]
  simp only [readRowGroupsLoop, readCols, flushedChunks]
  have hbufs : bufs2 = colifyBufs schema 0 R := by
    apply eq_of_getD emptyBuf
    · rw [hlen2, colifyBufs_length]
    · intro k hk
      rw [hlen2] at hk
      rw [hk2 k hk, colifyBufs_getD schema 0 k R hk, Nat.zero_add]
  rw [hbufs]
  rw [rowsOf_flushed schema hne, hcsflat]

/-! ## Well-formed inputs -/

/-- Well-formedness of one record slot against its schema field: a present
value fits the column type; an absent slot is only allowed on an optional
column. -/
def fieldOk (sf : SchemaField) (o : Option PValue) : Prop :=
  match o with
  | some v => valOk sf.typ v
  | none => sf.rep = .optional

instance (sf : SchemaField) (o : Option PValue) : Decidable (fieldOk sf o) := by
  cases o <;> simp only [fieldOk] <;> infer_instance

/-- A record fits the schema: one slot per column, each slot well formed. -/
def recWF (schema : List SchemaField) (r : Rec) : Prop :=
  r.length = schema.length ∧
    ∀ i, i < schema.length → fieldOk (schema.getD i dfltField) (r.getD i none)

instance (schema : List SchemaField) (r : Rec) : Decidable (recWF schema r) := by
  unfold recWF
  infer_instance

/-- A schema the round trip covers: nonempty, at most 1024 columns with
distinct names of at most 1024 bytes, no boolean columns. -/
def schemaWF (schema : List SchemaField) : Prop :=
  schema ≠ [] ∧ schema.length ≤ 1024 ∧
    (schema.map SchemaField.name).Nodup ∧
    ∀ sf ∈ schema, sf.typ ≠ .pbool ∧ sf.name.length ≤ 1024

instance (schema : List SchemaField) : Decidable (schemaWF schema) := by
  unfold schemaWF
  infer_instance

/-- A record sequence the round trip covers: bounded count, every record
well formed. -/
def inputWF (schema : List SchemaField) (R : List Rec) : Prop :=
  R.length ≤ 2 ^ 20 ∧ ∀ r ∈ R, recWF schema r

instance (schema : List SchemaField) (R : List Rec) : Decidable (inputWF schema R) := by
  unfold inputWF
  infer_instance

theorem getD_mem_of_lt {α : Type} {l : List α} {j : Nat} (d : α) (h : j < l.length) :
    l.getD j d ∈ l := by
  rw [List.getD_eq_getElem?_getD, List.getElem?_eq_getElem h]
  exact List.getElem_mem h

theorem colifyBuf_vals_ok (schema : List SchemaField) (j : Nat)
    (hj : j < schema.length) (c : List Rec) (hc : ∀ r ∈ c, recWF schema r) :
    ∀ v ∈ (colifyBuf (schema.getD j dfltField) j c).vals,
      valOk (schema.getD j dfltField).typ v := by
  intro v hv
  cases hrep : (schema.getD j dfltField).rep with
  | required =>
    simp only [colifyBuf, hrep, List.mem_map] at hv
    obtain ⟨r, hr, hve⟩ := hv
    have hfo := (hc r hr).2 j hj
    cases ho : r.getD j none with
    | none =>
      rw [ho] at hfo
      simp only [fieldOk] at hfo
      rw [hfo] at hrep
      exact absurd hrep (by decide)
    | some w =>
      rw [ho] at hfo hve
      simp only [fieldOk] at hfo
      simp only [Option.getD_some] at hve
      rw [← hve]
      exact hfo
  | optional =>
    simp only [colifyBuf, hrep, List.mem_filterMap] at hv
    obtain ⟨r, hr, ho⟩ := hv
    have hfo := (hc r hr).2 j hj
    rw [ho] at hfo
    simpa only [fieldOk] using hfo

theorem encodeVal_length_le {t : PType} {v : PValue} (h : valOk t v) :
    (encodeVal v).length ≤ 1028 := by
  cases t <;> cases v <;> simp only [valOk] at h <;>
    simp [encodeVal, leBytes_length] <;> omega

theorem flatMap_encodeVal_length_le (vals : List PValue)
    (h : ∀ v ∈ vals, (encodeVal v).length ≤ 1028) :
    (vals.flatMap encodeVal).length ≤ 1028 * vals.length := by
  induction vals with
  | nil => simp
  | cons v vt ih =>
    simp only [List.flatMap_cons, List.length_append, List.length_cons]
    have h1 := h v (by simp)
    have h2 := ih fun w hw => h w (by simp [hw])
    calc (encodeVal v).length + (vt.flatMap encodeVal).length
        ≤ 1028 + 1028 * vt.length := Nat.add_le_add h1 h2
      _ = 1028 * (vt.length + 1) := by ring

theorem encodeColumn_length_le {t : PType} (hnb : t ≠ .pbool) (vals : List PValue)
    (h : ∀ v ∈ vals, valOk t v) :
    (encodeColumn t vals).length ≤ 1028 * vals.length := by
  have he : encodeColumn t vals = vals.flatMap encodeVal := by
    cases t
    · exact absurd rfl hnb
    all_goals rfl
  rw [he]
  exact flatMap_encodeVal_length_le vals fun v hv => encodeVal_length_le (h v hv)

theorem colifyBuf_vals_length_le (sf : SchemaField) (i : Nat) (c : List Rec) :
    (colifyBuf sf i c).vals.length ≤ c.length := by
  cases hrep : sf.rep with
  | required => simp [colifyBuf, hrep]
  | optional =>
    simp only [colifyBuf, hrep]
    exact List.length_filterMap_le _ _

theorem pageWF_of (sf : SchemaField) (i : Nat) (c : List Rec)
    (hnb : sf.typ ≠ .pbool) (hclen : c.length ≤ 2 ^ 20)
    (hvals : ∀ v ∈ (colifyBuf sf i c).vals, valOk sf.typ v) :
    pageWF sf i c := by
  have henc := encodeColumn_length_le hnb _ hvals
  have hvl : (colifyBuf sf i c).vals.length ≤ c.length :=
    colifyBuf_vals_length_le sf i c
  have henc2 : (encodeColumn sf.typ (colifyBuf sf i c).vals).length
      ≤ 1028 * (2 ^ 20) := by
    calc (encodeColumn sf.typ (colifyBuf sf i c).vals).length
        ≤ 1028 * (colifyBuf sf i c).vals.length := henc
      _ ≤ 1028 * (2 ^ 20) := Nat.mul_le_mul_left 1028 (by omega)
  constructor
  · cases hrep : sf.rep with
    | required =>
      simp only [pagePayload, hrep]
      norm_num at henc2 ⊢
      omega
    | optional =>
      have hd : (colifyBuf sf i c).defs.length = c.length :=
        colifyBuf_defs_length_opt hrep i c
      simp only [pagePayload, hrep, List.length_append, writeLevels_length]
      norm_num at henc2 ⊢
      omega
  · norm_num
    omega

theorem splitChunks_chunk_le_total (P : Nat) (R : List Rec) :
    ∀ c ∈ splitChunks P R, c.length ≤ R.length := by
  intro c hc
  rw [splitChunks] at hc
  by_cases h : R.length ≤ P ∨ P = 0
  · rw [if_pos h] at hc
    simp only [List.mem_singleton] at hc
    rw [hc]
  · rw [if_neg h] at hc
    rcases List.mem_cons.mp hc with h1 | h2
    · rw [h1]
      simp [List.length_take]
    · have := splitChunks_chunk_le_total P (R.drop P) c h2
      simp only [List.length_drop] at this
      omega
termination_by R.length
decreasing_by
  simp only [List.length_drop]
  push_neg at h
  omega

theorem splitChunks_count_le (P : Nat) (R : List Rec) :
    (splitChunks P R).length ≤ R.length + 1 := by
  rw [splitChunks]
  by_cases h : R.length ≤ P ∨ P = 0
  · rw [if_pos h]
    simp
  · rw [if_neg h]
    have ih := splitChunks_count_le P (R.drop P)
    simp only [List.length_cons, List.length_drop] at ih ⊢
    push_neg at h
    omega
termination_by R.length
decreasing_by
  simp only [List.length_drop]
  push_neg at h
  omega

theorem pageWF_of_inputWF (schema : List SchemaField) {P : Nat} (hP : 1 ≤ P)
    (R : List Rec) (hRlen : R.length ≤ 2 ^ 20) (hR : ∀ r ∈ R, recWF schema r)
    (hnb : ∀ sf ∈ schema, sf.typ ≠ .pbool) :
    ∀ j, j < schema.length → ∀ c ∈ chunksP P R,
      pageWF (schema.getD j dfltField) j c := by
  intro j hj c hc
  rw [chunksP_eq_splitChunks hP] at hc
  have hcsub : ∀ r ∈ c, r ∈ R := by
    intro r hr
    rw [← splitChunks_flatten P R]
    exact List.mem_flatten.mpr ⟨c, hc, hr⟩
  apply pageWF_of
  · exact hnb _ (getD_mem_of_lt dfltField hj)
  · have := splitChunks_chunk_le_total P R c hc
    omega
  · exact colifyBuf_vals_ok schema j hj c fun r hr => hR r (hcsub r hr)

theorem colifyBuf_vals_ok_of_inputWF (schema : List SchemaField) (R : List Rec)
    (hR : ∀ r ∈ R, recWF schema r) :
    ∀ j, j < schema.length →
      ∀ v ∈ (colifyBuf (schema.getD j dfltField) j R).vals,
        valOk (schema.getD j dfltField).typ v := by
  intro j hj
  exact colifyBuf_vals_ok schema j hj R hR

/-! ## The flushed footer is well formed and small -/

theorem flushedChunks_length (st : List SchemaField) (k : Nat)
    (cs : List (List Rec)) : (flushedChunks st k cs).length = st.length := by
  induction st generalizing k with
  | nil => rfl
  | cons sf st2 ih => simp [flushedChunks, ih]

theorem sum_map_le_mul {α : Type} (l : List α) (f : α → Nat) (B : Nat)
    (h : ∀ x ∈ l, f x ≤ B) : (l.map f).sum ≤ B * l.length := by
  induction l with
  | nil => simp
  | cons x xt ih =>
    simp only [List.map_cons, List.sum_cons, List.length_cons]
    have h1 := h x (by simp)
    have h2 := ih fun y hy => h y (by simp [hy])
    calc f x + (xt.map f).sum ≤ B + B * xt.length := Nat.add_le_add h1 h2
      _ = B * (xt.length + 1) := by ring

theorem mergedChunk_wf (sf : SchemaField) (i : Nat) (cs : List (List Rec))
    (hwf : ∀ c ∈ cs, pageWF sf i c) (hname : sf.name.length ≤ 1024)
    (hcs : cs.length ≤ 2 ^ 20 + 1) (hn : (cs.map List.length).sum < 2 ^ 64) :
    chunkWF (mergedChunk sf i cs) := by
  refine ⟨by simp only [mergedChunk]; omega, by simp [mergedChunk], ?_, ?_⟩
  · simp only [mergedChunk]
    have hb : (cs.map fun c => (snappyEncode (pagePayload sf i c)).length).sum
        ≤ (2 ^ 32 + 4) * cs.length := by
      apply sum_map_le_mul
      intro c hc
      rw [snappyEncode_length]
      have := (hwf c hc).1
      omega
    have hc2 : (2 ^ 32 + 4) * cs.length ≤ (2 ^ 32 + 4) * (2 ^ 20 + 1) :=
      Nat.mul_le_mul_left _ hcs
    have : ((2 : Nat) ^ 32 + 4) * (2 ^ 20 + 1) < 2 ^ 64 := by norm_num
    omega
  · simpa only [mergedChunk] using hn

theorem flushedChunks_mem : ∀ (st : List SchemaField) (k : Nat)
    (cs : List (List Rec)) (ch : Chunk), ch ∈ flushedChunks st k cs →
    ∃ j, j < st.length ∧ ch = mergedChunk (st.getD j dfltField) (k + j) cs
  | sf :: st2, k, cs, ch, h => by
    rcases List.mem_cons.mp h with h1 | h2
    · exact ⟨0, by simp, by simpa using h1⟩
    · obtain ⟨j, hj, he⟩ := flushedChunks_mem st2 (k + 1) cs ch h2
      refine ⟨j + 1, by simp; omega, ?_⟩
      have harith : k + (j + 1) = k + 1 + j := by omega
      rw [List.getD_cons_succ, harith]
      exact he

theorem footerWF_flushed (schema : List SchemaField) {P : Nat} (hP : 1 ≤ P)
    (R : List Rec) (hRlen : R.length ≤ 2 ^ 20) (hR : ∀ r ∈ R, recWF schema r)
    (hnb : ∀ sf ∈ schema, sf.typ ≠ .pbool)
    (hnames : ∀ sf ∈ schema, sf.name.length ≤ 1024)
    (hslen : schema.length ≤ 1024) :
    footerWF [flushedChunks schema 0 (chunksP P R), []] := by
  have hflat : (chunksP P R).flatten = R := by
    rw [chunksP_eq_splitChunks hP]
    exact splitChunks_flatten P R
  have hcount : (chunksP P R).length ≤ 2 ^ 20 + 1 := by
    rw [chunksP_eq_splitChunks hP]
    have := splitChunks_count_le P R
    omega
  have hnsum : ((chunksP P R).map List.length).sum < 2 ^ 64 := by
    rw [← List.length_flatten, hflat]
    norm_num
    omega
  refine ⟨by norm_num, ?_⟩
  intro rg hrg
  rcases List.mem_cons.mp hrg with h1 | h2
  · subst h1
    refine ⟨?_, ?_⟩
    · rw [flushedChunks_length]
      norm_num
      omega
    · intro ch hch
      obtain ⟨j, hj, he⟩ := flushedChunks_mem schema 0 (chunksP P R) ch hch
      rw [Nat.zero_add] at he
      subst he
      apply mergedChunk_wf
      · exact pageWF_of_inputWF schema hP R hRlen hR hnb j hj
      · exact (hnames _ (getD_mem_of_lt dfltField hj))
      · exact hcount
      · exact hnsum
  · simp only [List.mem_singleton] at h2
    subst h2
    exact ⟨by norm_num, by simp⟩

theorem serChunk_length (ch : Chunk) :
    (serChunk ch).length = 32 + ch.name.length := by
  simp only [serChunk, List.length_append, leBytes_length]
  omega

theorem serRowGroup_length (rg : List Chunk) :
    (serRowGroup rg).length = 8 + (rg.map fun ch => (serChunk ch).length).sum := by
  simp [serRowGroup, leBytes_length, List.length_flatMap, Function.comp_def]

theorem serFooter_flushed_length_lt (schema : List SchemaField)
    (cs : List (List Rec)) (hslen : schema.length ≤ 1024)
    (hnames : ∀ sf ∈ schema, sf.name.length ≤ 1024) :
    (serFooter [flushedChunks schema 0 cs, []]).length < 2 ^ 32 := by
  have hchname : ∀ ch ∈ flushedChunks schema 0 cs, ch.name.length ≤ 1024 := by
    intro ch hch
    obtain ⟨j, hj, he⟩ := flushedChunks_mem schema 0 cs ch hch
    rw [he]
    exact hnames _ (getD_mem_of_lt dfltField hj)
  have hsum : ((flushedChunks schema 0 cs).map fun ch => (serChunk ch).length).sum
      ≤ 1056 * (flushedChunks schema 0 cs).length := by
    apply sum_map_le_mul
    intro ch hch
    rw [serChunk_length]
    have := hchname ch hch
    omega
  have hcslen : (flushedChunks schema 0 cs).length = schema.length :=
    flushedChunks_length schema 0 cs
  have hb : 1056 * (flushedChunks schema 0 cs).length ≤ 1056 * 1024 := by
    rw [hcslen]
    exact Nat.mul_le_mul_left 1056 hslen
  simp only [serFooter, List.length_append, leBytes_length, List.flatMap_cons,
    List.flatMap_nil, List.append_nil, serRowGroup_length]
  have h2 : (serRowGroup []).length = 8 := by simp [serRowGroup, leBytes_length]
  simp only [List.length_flatMap, Function.comp, serRowGroup_length] at h2 ⊢
  norm_num at hb hsum ⊢
  omega

/-! ## Scanning the filled buffers back into records -/

/-- The record positions a schema suffix writes during one `Scan`, taken
from a source record `r`. -/
def setsFrom : List SchemaField → Nat → Rec → Rec → Rec
  | [], _, _, rec0 => rec0
  | _ :: st, j, r, rec0 => setsFrom st (j + 1) r (rec0.set j (r.getD j none))

theorem setsFrom_length : ∀ (st : List SchemaField) (j : Nat) (r rec0 : Rec),
    (setsFrom st j r rec0).length = rec0.length
  | [], _, _, _ => rfl
  | _ :: st, j, r, rec0 => by
    rw [setsFrom, setsFrom_length st (j + 1) r _]
    simp

theorem setsFrom_getD : ∀ (st : List SchemaField) (j : Nat) (r rec0 : Rec)
    (k : Nat), j + st.length ≤ rec0.length →
    (setsFrom st j r rec0).getD k none
      = if j ≤ k ∧ k < j + st.length then r.getD k none else rec0.getD k none
  | [], j, r, rec0, k, _ => by
    rw [setsFrom, if_neg (by simp only [List.length_nil]; omega)]
  | sf :: st, j, r, rec0, k, h => by
    rw [setsFrom]
    have hlen : j + 1 + st.length ≤ (rec0.set j (r.getD j none)).length := by
      simp only [List.length_set, List.length_cons] at h ⊢
      omega
    rw [setsFrom_getD st (j + 1) r _ k hlen]
    by_cases h1 : j + 1 ≤ k ∧ k < j + 1 + st.length
    · rw [if_pos h1, if_pos (by simp only [List.length_cons]; omega)]
    · rw [if_neg h1]
      by_cases h2 : k = j
      · subst h2
        rw [getD_set_self _ _ _ _ (by simp only [List.length_cons] at h; omega)]
        rw [if_pos (by simp only [List.length_cons]; omega)]
      · rw [getD_set_ne _ _ _ _ _ (fun he => h2 he.symm)]
        rw [if_neg (by simp only [List.length_cons]; omega)]

theorem fieldScan_colifyBuf (sf : SchemaField) (j : Nat) (r : Rec)
    (rest : List Rec) (rec0 : Rec) (hok : fieldOk sf (r.getD j none)) :
    fieldScan sf j (colifyBuf sf j (r :: rest)) rec0
      = (colifyBuf sf j rest, rec0.set j (r.getD j none)) := by
  cases hrep : sf.rep with
  | required =>
    cases ho : r.getD j none with
    | none =>
      rw [ho] at hok
      simp only [fieldOk] at hok
      rw [hok] at hrep
      exact absurd hrep (by decide)
    | some v =>
      rw [List.getD_eq_getElem?_getD] at ho
      simp [fieldScan, colifyBuf, hrep, ho]
  | optional =>
    cases ho : r.getD j none with
    | none =>
      rw [List.getD_eq_getElem?_getD] at ho
      simp [fieldScan, colifyBuf, hrep, ho]
    | some v =>
      rw [List.getD_eq_getElem?_getD] at ho
      simp [fieldScan, colifyBuf, hrep, ho]

theorem scanBufs_colifyBufs : ∀ (st : List SchemaField) (j : Nat) (r : Rec)
    (rest : List Rec) (rec0 : Rec),
    (∀ k, k < st.length → fieldOk (st.getD k dfltField) (r.getD (j + k) none)) →
    scanBufs st j (colifyBufs st j (r :: rest)) rec0
      = (colifyBufs st j rest, setsFrom st j r rec0)
  | [], j, r, rest, rec0, _ => rfl
  | sf :: st, j, r, rest, rec0, h => by
    have h0 : fieldOk sf (r.getD j none) := by
      have := h 0 (by simp)
      simpa using this
    simp only [colifyBufs, scanBufs]
    rw [fieldScan_colifyBuf sf j r rest rec0 h0]
    have hrec : ∀ k, k < st.length →
        fieldOk (st.getD k dfltField) (r.getD (j + 1 + k) none) := by
      intro k hk
      have := h (k + 1) (by simp only [List.length_cons]; omega)
      rw [List.getD_cons_succ] at this
      have harith : j + (k + 1) = j + 1 + k := by omega
      rwa [harith] at this
    rw [scanBufs_colifyBufs st (j + 1) r rest _ hrec]
    rfl

theorem setsFrom_eq_rec (schema : List SchemaField) (r : Rec)
    (hlen : r.length = schema.length) :
    setsFrom schema 0 r (schema.map fun _ => none) = r := by
  apply eq_of_getD none
  · rw [setsFrom_length]
    simp [hlen]
  · intro k hk
    rw [setsFrom_length, List.length_map] at hk
    rw [setsFrom_getD schema 0 r _ k (by simp)]
    rw [if_pos ⟨Nat.zero_le k, by omega⟩]

theorem scanAll_colifyBufs (schema : List SchemaField) (R : List Rec)
    (hR : ∀ r ∈ R, recWF schema r) :
    scanAll schema R.length (colifyBufs schema 0 R) = R := by
  induction R with
  | nil => rfl
  | cons r rest ih =>
    simp only [List.length_cons, scanAll, scanOnce]
    have hwf := hR r (by simp)
    have hok : ∀ k, k < schema.length →
        fieldOk (schema.getD k dfltField) (r.getD (0 + k) none) := by
      intro k hk
      rw [Nat.zero_add]
      exact hwf.2 k hk
    rw [scanBufs_colifyBufs schema 0 r rest _ hok]
    rw [setsFrom_eq_rec schema r hwf.1]
    rw [ih fun x hx => hR x (by simp [hx])]

/-! ## The full round trip -/

theorem readRecords_writeFile (schema : List SchemaField) (P : Nat)
    (hP : 1 ≤ P) (R : List Rec) (hs : schemaWF schema) (hi : inputWF schema R) :
    readRecords schema (writeFile schema P R).out = .ok R := by
  obtain ⟨hne, hslen, hnd, hsf⟩ := hs
  obtain ⟨hRlen, hR⟩ := hi
  have hnb : ∀ sf ∈ schema, sf.typ ≠ .pbool := fun sf h => (hsf sf h).1
  have hnames : ∀ sf ∈ schema, sf.name.length ≤ 1024 := fun sf h => (hsf sf h).2
  unfold readRecords
  rw [newParquetReader_writeFile schema R P hP hne hnd hnb
    (pageWF_of_inputWF schema hP R hRlen hR hnb)
    (colifyBuf_vals_ok_of_inputWF schema R hR)
    (footerWF_flushed schema hP R hRlen hR hnb hnames hslen)
    (by
      have := serFooter_flushed_length_lt schema (chunksP P R) hslen hnames
      omega)]
  dsimp only
  rw [scanAll_colifyBufs schema R hR]

/-! ## Supporting lemmas for the claims -/

theorem decodeFixed_length {w : Nat} {mk : Nat → PValue} :
    ∀ (n : Nat) (bs : List Byte) (vs : List PValue),
      decodeFixed w mk n bs = some vs → vs.length = n
  | 0, bs, vs, h => by
    simp only [decodeFixed, Option.some.injEq] at h
    rw [← h]
    rfl
  | n + 1, bs, vs, h => by
    simp only [decodeFixed] at h
    cases hr : readN w bs with
    | none => rw [hr] at h; exact absurd h (by simp)
    | some p =>
      obtain ⟨chunk, rest⟩ := p
      rw [hr] at h
      dsimp only at h
      cases hd : decodeFixed w mk n rest with
      | none => rw [hd] at h; exact absurd h (by simp)
      | some vt =>
        rw [hd] at h
        simp only [Option.map_some', Option.some.injEq] at h
        rw [← h]
        simp [decodeFixed_length n rest vt hd]

theorem decodeStrings_length :
    ∀ (n : Nat) (bs : List Byte) (vs : List PValue),
      decodeStrings n bs = some vs → vs.length = n
  | 0, bs, vs, h => by
    simp only [decodeStrings, Option.some.injEq] at h
    rw [← h]
    rfl
  | n + 1, bs, vs, h => by
    simp only [decodeStrings] at h
    cases hr : readN 4 bs with
    | none => rw [hr] at h; exact absurd h (by simp)
    | some p =>
      obtain ⟨lb, r1⟩ := p
      rw [hr] at h
      dsimp only at h
      by_cases hL : leVal lb < 2 ^ 31
      · rw [if_pos hL] at h
        cases hr2 : readN (leVal lb) r1 with
        | none => rw [hr2] at h; exact absurd h (by simp)
        | some q =>
          obtain ⟨s, r2⟩ := q
          rw [hr2] at h
          dsimp only at h
          cases hd : decodeStrings n r2 with
          | none => rw [hd] at h; exact absurd h (by simp)
          | some vt =>
            rw [hd] at h
            simp only [Option.map_some', Option.some.injEq] at h
            rw [← h]
            simp [decodeStrings_length n r2 vt hd]
      · rw [if_neg hL] at h
        exact absurd h (by simp)

theorem getBools_length (n : Nat) (bs : List Byte) (xs : List Bool)
    (h : getBools n bs = some xs) : xs.length = n := by
  unfold getBools at h
  by_cases hle : (n + 7) / 8 ≤ bs.length
  · rw [if_pos hle] at h
    simp only [Option.some.injEq] at h
    rw [← h]
    simp
  · rw [if_neg hle] at h
    exact absurd h (by simp)

theorem decodeColumn_length (t : PType) (n : Nat) (bs : List Byte)
    (vs : List PValue) (h : decodeColumn t n bs = some vs) : vs.length = n := by
  cases t <;> simp only [decodeColumn] at h
  case pbool =>
    cases hg : getBools n bs with
    | none => rw [hg] at h; exact absurd h (by simp)
    | some xs =>
      rw [hg] at h
      simp only [Option.map_some', Option.some.injEq] at h
      rw [← h, List.length_map]
      exact getBools_length n bs xs hg
  case pstring => exact decodeStrings_length n bs vs h
  all_goals exact decodeFixed_length n bs vs h

theorem nValsOf_append (a b : List Nat) :
    nValsOf (a ++ b) = nValsOf a + nValsOf b := by
  simp [nValsOf, List.filter_append]

theorem fieldAdd_opt_stats {sf : SchemaField} (hopt : sf.rep = .optional)
    (i : Nat) (rs : List Rec) :
    ∀ b0 : FieldBuf,
      (rs.foldl (fun b r => fieldAdd i sf b r) b0).defs.length
          = b0.defs.length + rs.length
      ∧ (nValsOf b0.defs = b0.vals.length →
          nValsOf (rs.foldl (fun b r => fieldAdd i sf b r) b0).defs
            = (rs.foldl (fun b r => fieldAdd i sf b r) b0).vals.length) := by
  induction rs with
  | nil => intro b0; exact ⟨by simp, fun h => h⟩
  | cons r rt ih =>
    intro b0
    simp only [List.foldl_cons, List.length_cons]
    have hstep : (fieldAdd i sf b0 r).defs.length = b0.defs.length + 1
        ∧ (nValsOf b0.defs = b0.vals.length →
            nValsOf (fieldAdd i sf b0 r).defs = (fieldAdd i sf b0 r).vals.length) := by
      cases hv : r.getD i none with
      | none =>
        rw [List.getD_eq_getElem?_getD] at hv
        constructor
        · simp [fieldAdd, hopt, hv]
        · intro hinv
          simpa [fieldAdd, hopt, hv, nValsOf_append, nValsOf] using hinv
      | some v =>
        rw [List.getD_eq_getElem?_getD] at hv
        constructor
        · simp [fieldAdd, hopt, hv]
        · intro hinv
          simpa [fieldAdd, hopt, hv, nValsOf_append, nValsOf] using hinv
    obtain ⟨h1, h2⟩ := ih (fieldAdd i sf b0 r)
    refine ⟨by rw [h1, hstep.1]; omega, fun hinv => h2 (hstep.2 hinv)⟩

theorem headerLogOf_name_mem : ∀ (st : List SchemaField) (cs : List (List Rec))
    (e : ColName × Nat), e ∈ headerLogOf st cs → e.1 ∈ st.map SchemaField.name
  | sf :: st2, cs, e, h => by
    simp only [headerLogOf, List.mem_append] at h
    rcases h with h1 | h2
    · simp only [List.mem_map] at h1
      obtain ⟨c, _, he⟩ := h1
      rw [← he]
      simp
    · have := headerLogOf_name_mem st2 cs e h2
      simp only [List.map_cons, List.mem_cons]
      exact Or.inr this

theorem headerLogOf_filter (st : List SchemaField) (cs : List (List Rec)) :
    ∀ (j : Nat), j < st.length → (st.map SchemaField.name).Nodup →
    ((headerLogOf st cs).filter
        fun e => e.1 = (st.getD j dfltField).name).length = cs.length := by
  induction st with
  | nil => intro j hj; simp at hj
  | cons sf st2 ih =>
    intro j hj hnd
    have hndc : (∀ x ∈ st2, ¬x.name = sf.name)
        ∧ (List.map SchemaField.name st2).Nodup := by
      simpa using hnd
    cases j with
    | zero =>
      simp only [headerLogOf, List.getD_cons_zero, List.filter_append]
      have h1 : ((cs.map fun c => (sf.name, c.length)).filter
          fun e => e.1 = sf.name) = cs.map fun c => (sf.name, c.length) := by
        apply List.filter_eq_self.mpr
        intro e he
        simp only [List.mem_map] at he
        obtain ⟨c, _, hc⟩ := he
        rw [← hc]
        simp
      have h2 : ((headerLogOf st2 cs).filter fun e => e.1 = sf.name) = [] := by
        apply List.filter_eq_nil_iff.mpr
        intro e he
        have hmem := headerLogOf_name_mem st2 cs e he
        simp only [List.mem_map] at hmem
        obtain ⟨x, hx, hxe⟩ := hmem
        simp only [decide_eq_true_eq]
        intro hcon
        exact hndc.1 x hx (by rw [hxe, hcon])
      rw [h1, h2]
      simp
    | succ j =>
      have hj2 : j < st2.length := by simpa using hj
      have hmem : (st2.getD j dfltField) ∈ st2 := getD_mem_of_lt dfltField hj2
      simp only [headerLogOf, List.getD_cons_succ, List.filter_append]
      have h1 : ((cs.map fun c => (sf.name, c.length)).filter
          fun e => e.1 = (st2.getD j dfltField).name) = [] := by
        apply List.filter_eq_nil_iff.mpr
        intro e he
        simp only [List.mem_map] at he
        obtain ⟨c, _, hc⟩ := he
        rw [← hc]
        simp only [decide_eq_true_eq]
        intro hcon
        exact hndc.1 _ hmem hcon.symm
      rw [h1]
      simp only [List.nil_append]
      rw [ih j hj2 hndc.2]

theorem splitChunks_count_max {P : Nat} (hP : 1 ≤ P) (R : List Rec) :
    (splitChunks P R).length = max 1 ((R.length + P - 1) / P) := by
  by_cases hR : R = []
  · subst hR
    rw [splitChunks_nil]
    have h0 : ((0 : Nat) + P - 1) / P = 0 := Nat.div_eq_of_lt (by omega)
    simp only [List.length_nil, h0, List.length_cons, List.length_singleton]
    omega
  · rw [splitChunks_count hP R hR]
    have hpos : 1 ≤ R.length := List.length_pos.mpr hR
    have h1 : 1 ≤ (R.length + P - 1) / P :=
      (Nat.le_div_iff_mul_le (by omega)).mpr (by omega)
    rw [Nat.max_eq_right h1]

theorem fieldIndex_eq_none (schema : List SchemaField) (name : ColName)
    (h : name ∉ schema.map SchemaField.name) :
    fieldIndex schema name = none := by
  induction schema with
  | nil => rfl
  | cons sf st ih =>
    simp only [List.map_cons, List.mem_cons] at h
    push_neg at h
    simp only [fieldIndex]
    rw [if_neg (fun he => h.1 he.symm), ih h.2]
    rfl

/-! ## Bit-level behaviour of the boolean packer -/

/-- One step of `BoolField.Write`'s packing loop: set bit `i % 8` of byte
`i / 8` when value `i` is true. -/
def boolPackStep (vals : List Bool) (buf : List Byte) (i : Nat) : List Byte :=
  if vals.getD i false then
    buf.set (i / 8) (buf.getD (i / 8) 0 ||| (1 <<< (i % 8)))
  else buf

theorem boolPack_eq (vals : List Bool) :
    boolPack vals = (List.range vals.length).foldl (boolPackStep vals)
      (List.replicate ((vals.length + 7) / 8) 0) := rfl

theorem testBit_one_shift (m jj : Nat) :
    (1 <<< m : Nat).testBit jj = decide (jj = m) := by
  rw [Nat.shiftLeft_eq, one_mul]
  by_cases h : jj = m
  · subst h
    simp [Nat.testBit_two_pow_self]
  · simp [Nat.testBit_two_pow_of_ne (fun he => h he.symm), h]

theorem boolPack_fold_length (vals : List Bool) :
    ∀ (n : Nat) (b0 : List Byte),
      ((List.range n).foldl (boolPackStep vals) b0).length = b0.length := by
  intro n
  induction n with
  | zero => intro b0; rfl
  | succ n ih =>
    intro b0
    rw [List.range_succ, List.foldl_append, List.foldl_cons, List.foldl_nil,
      boolPackStep]
    by_cases hv : vals.getD n false = true
    · rw [if_pos hv, List.length_set]
      exact ih b0
    · rw [if_neg hv]
      exact ih b0

theorem boolPack_fold_bit (vals : List Bool) :
    ∀ (n : Nat) (b0 : List Byte) (q jj : Nat), jj < 8 → (n + 7) / 8 ≤ b0.length →
      (((List.range n).foldl (boolPackStep vals) b0).getD q 0).testBit jj
        = ((b0.getD q 0).testBit jj
            || (decide (8 * q + jj < n) && vals.getD (8 * q + jj) false)) := by
  intro n
  induction n with
  | zero =>
    intro b0 q jj hj hlen
    simp
  | succ n ih =>
    intro b0 q jj hj hlen
    have hlen2 : (n + 7) / 8 ≤ b0.length :=
      le_trans (Nat.div_le_div_right (by omega)) hlen
    have hdiv : (n + 8) / 8 = n / 8 + 1 := Nat.add_div_right n (by omega)
    have hblen : n / 8 < b0.length := by omega
    rw [List.range_succ, List.foldl_append, List.foldl_cons, List.foldl_nil,
      boolPackStep]
    by_cases hv : vals.getD n false = true
    · rw [if_pos hv]
      by_cases hq : n / 8 = q
      · subst hq
        have hql : n / 8 < ((List.range n).foldl (boolPackStep vals) b0).length := by
          rw [boolPack_fold_length]
          exact hblen
        rw [getD_set_self _ _ _ _ hql, Nat.testBit_or,
          ih b0 (n / 8) jj hj hlen2, testBit_one_shift]
        have hidx : 8 * (n / 8) + n % 8 = n := Nat.div_add_mod n 8
        by_cases hja : jj = n % 8
        · subst hja
          rw [List.getD_eq_getElem?_getD] at hv
          simp [hidx, hv, Nat.lt_succ_self]
        · have hne : 8 * (n / 8) + jj ≠ n := by omega
          have hdec : decide (8 * (n / 8) + jj < n + 1)
              = decide (8 * (n / 8) + jj < n) := by
            by_cases hlt : 8 * (n / 8) + jj < n
            · simp [hlt, Nat.lt_succ_of_lt hlt]
            · have hnlt : ¬ (8 * (n / 8) + jj < n + 1) := by omega
              simp [hlt, hnlt]
          simp [hja, hdec]
      · rw [getD_set_ne _ _ _ _ _ hq, ih b0 q jj hj hlen2]
        have hq8 : (8 * q + jj) / 8 = q := by
          rw [Nat.mul_add_div (by omega), Nat.div_eq_of_lt hj]
          omega
        have hne : 8 * q + jj ≠ n := by
          intro hcon
          apply hq
          rw [← hcon, hq8]
        have hdec : decide (8 * q + jj < n + 1) = decide (8 * q + jj < n) := by
          by_cases hlt : 8 * q + jj < n
          · simp [hlt, Nat.lt_succ_of_lt hlt]
          · have hnlt : ¬ (8 * q + jj < n + 1) := by omega
            simp [hlt, hnlt]
        rw [hdec]
    · rw [if_neg hv, ih b0 q jj hj hlen2]
      have hvf : vals.getD n false = false := by
        revert hv
        cases vals.getD n false <;> simp
      by_cases heq : 8 * q + jj = n
      · rw [List.getD_eq_getElem?_getD] at hvf
        simp [heq, hvf, Nat.lt_irrefl]
      · have hdec : decide (8 * q + jj < n + 1) = decide (8 * q + jj < n) := by
          by_cases hlt : 8 * q + jj < n
          · simp [hlt, Nat.lt_succ_of_lt hlt]
          · have hnlt : ¬ (8 * q + jj < n + 1) := by omega
            simp [hlt, hnlt]
        rw [hdec]

theorem getD_replicate_zero (n k : Nat) :
    (List.replicate n (0 : Nat)).getD k 0 = 0 := by
  rw [List.getD_eq_getElem?_getD, List.getElem?_replicate]
  by_cases h : k < n
  · rw [if_pos h]
    rfl
  · rw [if_neg h]
    rfl

theorem boolPack_length (vals : List Bool) :
    (boolPack vals).length = (vals.length + 7) / 8 := by
  rw [boolPack_eq, boolPack_fold_length]
  simp

theorem boolPack_bit (vals : List Bool) (i : Nat) (hi : i < vals.length) :
    ((boolPack vals).getD (i / 8) 0).testBit (i % 8) = vals.getD i false := by
  have h8 : i % 8 < 8 := Nat.mod_lt _ (by omega)
  rw [boolPack_eq, boolPack_fold_bit vals vals.length _ (i / 8) (i % 8) h8
    (by simp), getD_replicate_zero]
  have hidx : 8 * (i / 8) + i % 8 = i := Nat.div_add_mod i 8
  simp [hidx, hi]

theorem boolPack_trailing (vals : List Bool) (i : Nat) (hge : vals.length ≤ i) :
    ((boolPack vals).getD (i / 8) 0).testBit (i % 8) = false := by
  have h8 : i % 8 < 8 := Nat.mod_lt _ (by omega)
  rw [boolPack_eq, boolPack_fold_bit vals vals.length _ (i / 8) (i % 8) h8
    (by simp), getD_replicate_zero]
  have hidx : 8 * (i / 8) + i % 8 = i := Nat.div_add_mod i 8
  have hnlt : ¬ (8 * (i / 8) + i % 8 < vals.length) := by omega
  simp [hnlt]

/-! ## Concrete instances used by the claim witnesses -/

deriving instance DecidableEq for Except

/-- A two-column schema: a required int32 and an optional string. -/
def exSchemaA : List SchemaField :=
  [⟨[105, 100], .pint32, .required⟩, ⟨[110, 109], .pstring, .optional⟩]

/-- Two records over `exSchemaA`, the second with the optional field absent. -/
def exRecsA : List Rec :=
  [[some (.vint32 5), some (.vstring [104, 105])],
   [some (.vint32 (-3)), none]]

/-- A single required boolean column. -/
def exSchemaBool : List SchemaField := [⟨[98], .pbool, .required⟩]

/-- Two single-field boolean records. -/
def exRecsBool : List Rec := [[some (.vbool true)], [some (.vbool true)]]

/-- A schema whose only field name does not occur in `exFile7`'s footer. -/
def exSchemaB : List SchemaField := [⟨[122], .puint32, .required⟩]

/-- A footer chunk named `"a"`, unknown to `exSchemaB`. -/
def exChunk : Chunk := ⟨[97], ⟨0, 0, 0⟩⟩

/-- A file whose footer holds the single chunk `exChunk`. -/
def exFile7 : List Byte :=
  magic ++ serFooter [[exChunk]]
    ++ leBytes 4 (serFooter [[exChunk]]).length ++ magic

/-- An optional uint32 column. -/
def exOptField : SchemaField := ⟨[111], .puint32, .optional⟩

/-- One optional-column page payload: levels `[1, 0]` then one uint32. -/
def exPayload5 : List Byte := writeLevels [1, 0] ++ leBytes 4 9

/-- The page carrying `exPayload5`. -/
def exPage5 : List Byte :=
  pageHeaderBytes exPayload5.length (snappyEncode exPayload5).length 2
    ++ snappyEncode exPayload5

/-- The metadata position for `exPage5`. -/
def exPos5 : Position := ⟨0, (snappyEncode exPayload5).length, 2⟩

/-! ## The claims -/

theorem take4_magic {xs t : List Byte} (h : xs = magic ++ t) :
    xs.take 4 = magic := by
  subst h
  exact List.take_left' magic_length

theorem drop4_magic {xs t : List Byte} (h : xs = t ++ magic) :
    xs.drop (xs.length - 4) = magic := by
  subst h
  have hl : (t ++ magic).length - 4 = t.length := by
    simp [magic_length]
  rw [hl]
  exact List.drop_left t magic

/-- Claim C1 (amended): for every nonempty boolean-free schema of at most
1024 distinctly named columns (names at most 1024 bytes), every page size
of at least 1, and every sequence of at most 2^20 records that fit the
schema (strings at most 1024 bytes, every required field present), writing
the records and reading the produced bytes back — one Scan per successful
Next — yields the records field-wise, absent/present pattern included.
The original claim's unrestricted quantification over supported types
fails: boolean columns lose the per-page bit padding across pages (see the
counterexample). -/
theorem c1_roundtrip (schema : List SchemaField) (P : Nat) (hP : 1 ≤ P)
    (R : List Rec) (hs : schemaWF schema) (hi : inputWF schema R) :
    readRecords schema (writeFile schema P R).out = .ok R :=
  readRecords_writeFile schema P hP R hs hi

/-- Claim C1 witness: the round trip at a concrete two-column schema and
two records, the optional field absent in the second. -/
theorem c1_roundtrip_witness :
    (1 ≤ 2 ∧ schemaWF exSchemaA ∧ inputWF exSchemaA exRecsA)
    ∧ readRecords exSchemaA (writeFile exSchemaA 2 exRecsA).out = .ok exRecsA :=
  ⟨⟨by decide, by decide, by decide⟩,
    c1_roundtrip exSchemaA 2 (by decide) exRecsA (by decide) (by decide)⟩

set_option maxRecDepth 100000 in
/-- Claim C1 counterexample: two true booleans at page size 1 read back as
true, false — each page packs its single value into a full byte, and the
reader unpacks the concatenated payloads as if they were one bit stream. -/
theorem c1_counterexample :
    readRecords exSchemaBool (writeFile exSchemaBool 1 exRecsBool).out
      ≠ .ok exRecsBool := by decide

/-- Claim C2: flush emits the root row group's page for column 0, then each
chained child's page for column 0 in chain order, then the pages of column
1, and so on — `layoutBytes` is literally that column-major order (outer
recursion over schema columns, inner map over the chained chunks). -/
theorem c2_flush_column_major (schema : List SchemaField) (P : Nat)
    (hP : 1 ≤ P) (R : List Rec)
    (hnd : (schema.map SchemaField.name).Nodup) :
    (writerWrite schema (R.foldl (writerAdd schema) (newWriter schema P))).out
      = magic ++ layoutBytes schema 0 (chunksP P R) := by
  rw [writerWrite_spec schema hP R hnd]

/-- Claim C2 witness: the flush order at a concrete schema, page size 1 and
two records (hence two chained row groups). -/
theorem c2_flush_column_major_witness :
    (1 ≤ 1 ∧ (exSchemaA.map SchemaField.name).Nodup)
    ∧ (writerWrite exSchemaA
        (exRecsA.foldl (writerAdd exSchemaA) (newWriter exSchemaA 1))).out
      = magic ++ layoutBytes exSchemaA 0 (chunksP 1 exRecsA) :=
  ⟨⟨by decide, by decide⟩,
    c2_flush_column_major exSchemaA 1 (by decide) exRecsA (by decide)⟩

/-- Claim C3: for every optional column and every sequence of Add calls
starting from a fresh buffer, the definition-level count equals the number
of records added, and the number of levels equal to 1 equals the number of
buffered values.  (The invariant holds after each Add since the Add
sequence is arbitrary.) -/
theorem c3_optional_add_invariant (sf : SchemaField)
    (hopt : sf.rep = .optional) (i : Nat) (rs : List Rec) :
    (rs.foldl (fun b r => fieldAdd i sf b r) emptyBuf).defs.length = rs.length
    ∧ nValsOf (rs.foldl (fun b r => fieldAdd i sf b r) emptyBuf).defs
        = (rs.foldl (fun b r => fieldAdd i sf b r) emptyBuf).vals.length := by
  obtain ⟨h1, h2⟩ := fieldAdd_opt_stats hopt i rs emptyBuf
  refine ⟨by simpa [emptyBuf] using h1, h2 (by simp [emptyBuf, nValsOf])⟩

/-- Claim C3 witness: the invariant after adding a present and an absent
value to a concrete optional column. -/
theorem c3_optional_add_invariant_witness :
    exOptField.rep = .optional
    ∧ ((([[some (.vuint32 1)], [none]] : List Rec).foldl
          (fun b r => fieldAdd 0 exOptField b r) emptyBuf).defs.length
        = ([[some (.vuint32 1)], [none]] : List Rec).length
      ∧ nValsOf (([[some (.vuint32 1)], [none]] : List Rec).foldl
          (fun b r => fieldAdd 0 exOptField b r) emptyBuf).defs
        = (([[some (.vuint32 1)], [none]] : List Rec).foldl
          (fun b r => fieldAdd 0 exOptField b r) emptyBuf).vals.length) :=
  ⟨rfl, c3_optional_add_invariant exOptField rfl 0 [[some (.vuint32 1)], [none]]⟩

/-- Claim C4 (amended): the uncompressed-size argument the optional-column
doWrite passes to the page header is `wc.n`, but the counter has seen the
level bytes AND the value bytes — the emitted header carries
`(writeLevels defs).length + vals.length`, not the level bytes alone.  The
compressed block likewise covers levels plus values. -/
theorem c4_uncompressed_size (m : Metadata) (col : ColName) (defs : List Nat)
    (vals : List Byte) :
    (doWriteOptional m col defs vals).2
      = pageHeaderBytes ((writeLevels defs).length + vals.length)
          (snappyEncode (writeLevels defs ++ vals)).length defs.length
        ++ snappyEncode (writeLevels defs ++ vals) := by
  simp [doWriteOptional, wcWrite, writePageHeader]

/-- Claim C4 counterexample: with one definition level and four value
bytes, the header's uncompressed-size field reads back 9 — the 5 level
bytes plus the 4 value bytes — not the 5 level bytes the claim asserts. -/
theorem c4_counterexample :
    leVal ((doWriteOptional metaNew [99] [1] [7, 7, 7, 7]).2.take 8)
      ≠ (writeLevels [1]).length := by decide

/-- Claim C5: for every optional column read (on the non-string decode path
the claim's sources cite), a successful Read leaves the buffer with
`count(defs_so_far == 1) − len(vals_before)` newly decoded values appended:
the values decoded from the residual payload are exactly that many. -/
theorem c5_optional_decode_count (sf : SchemaField)
    (hopt : sf.rep = .optional) (hns : sf.typ ≠ .pstring) (b : FieldBuf)
    (bs : List Byte) (pos : Position) (b2 : FieldBuf) (rest : List Byte)
    (h : fieldRead sf b bs pos = some (b2, rest)) :
    b2.vals.length = b.vals.length + (nValsOf b2.defs - b.vals.length) := by
  simp only [fieldRead, hopt] at h
  cases hdr : doReadOptional (bs.length + 1) pos.n 0 b.defs [] bs with
  | none => rw [hdr] at h; exact absurd h (by simp)
  | some t =>
    obtain ⟨defs2, payload, rest0⟩ := t
    rw [hdr] at h
    dsimp only at h
    cases hty : sf.typ
    case pstring => exact absurd hty hns
    all_goals
      simp only [hty] at h
      rw [Option.map_eq_some'] at h
      obtain ⟨vs, hvs, heq⟩ := h
      have hlen := decodeColumn_length _ _ _ _ hvs
      injection heq with h1 h2
      rw [← h1]
      simp only [List.length_append]
      rw [hlen]

/-- Claim C5 witness: one page with levels `[1, 0]` over an empty buffer
decodes exactly one value. -/
theorem c5_optional_decode_count_witness :
    (exOptField.rep = .optional ∧ exOptField.typ ≠ .pstring
      ∧ fieldRead exOptField emptyBuf exPage5 exPos5
          = some (⟨[.vuint32 9], [1, 0]⟩, []))
    ∧ (FieldBuf.mk [.vuint32 9] [1, 0]).vals.length
        = emptyBuf.vals.length
          + (nValsOf (FieldBuf.mk [.vuint32 9] [1, 0]).defs
              - emptyBuf.vals.length) :=
  ⟨⟨rfl, by decide, by decide⟩,
    c5_optional_decode_count exOptField rfl (by decide) emptyBuf exPage5
      exPos5 ⟨[.vuint32 9], [1, 0]⟩ [] (by decide)⟩

/-- Claim C6 (amended): after adding N records with page size P ≥ 1 and
flushing once, each column has had `max 1 (ceil(N / P))` pages written —
the original `ceil(N / P)` fails at N = 0, where the root row group is
still serialized and every column gets one (empty) page. -/
theorem c6_page_count (schema : List SchemaField) (P : Nat) (hP : 1 ≤ P)
    (R : List Rec) (hnd : (schema.map SchemaField.name).Nodup) (j : Nat)
    (hj : j < schema.length) :
    ((writerWrite schema (R.foldl (writerAdd schema)
          (newWriter schema P))).meta.headerLog.filter
        fun e => e.1 = (schema.getD j dfltField).name).length
      = max 1 ((R.length + P - 1) / P) := by
  rw [writerWrite_spec schema hP R hnd]
  dsimp only
  rw [headerLogOf_filter schema (chunksP P R) j hj hnd,
    chunksP_eq_splitChunks hP]
  exact splitChunks_count_max hP R

/-- Claim C6 witness: two records at page size 2 give each column one page. -/
theorem c6_page_count_witness :
    (1 ≤ 2 ∧ (exSchemaA.map SchemaField.name).Nodup ∧ 0 < exSchemaA.length)
    ∧ ((writerWrite exSchemaA (exRecsA.foldl (writerAdd exSchemaA)
          (newWriter exSchemaA 2))).meta.headerLog.filter
        fun e => e.1 = (exSchemaA.getD 0 dfltField).name).length
      = max 1 ((exRecsA.length + 2 - 1) / 2) :=
  ⟨⟨by decide, by decide, by decide⟩,
    c6_page_count exSchemaA 2 (by decide) exRecsA (by decide) 0 (by decide)⟩

/-- Claim C6 counterexample: zero records at page size 1 still write one
page per column, where ceil(0 / 1) = 0. -/
theorem c6_counterexample :
    ¬ (((writerWrite exSchemaB (([] : List Rec).foldl (writerAdd exSchemaB)
          (newWriter exSchemaB 1))).meta.headerLog.filter
        fun e => e.1 = [122]).length
      = (([] : List Rec).length + 1 - 1) / 1) := by decide

/-- Claim C7: when the file's footer parses and the first column chunk of
the first row group carries a name that is no field of the reader's
schema, NewParquetReader fails with an unknown-field error naming it — no
reader is returned and no data page of that column is read. -/
theorem c7_unknown_field (schema : List SchemaField) (file : List Byte)
    (ch : Chunk) (rest : List Chunk) (rgs : List (List Chunk))
    (hf : readFooter file = some ((ch :: rest) :: rgs))
    (hunk : ch.name ∉ schema.map SchemaField.name) :
    newParquetReader schema file = .error (.unknownField ch.name) := by
  unfold newParquetReader
  rw [hf]
  simp only [readRowGroupsLoop, readCols,
    fieldIndex_eq_none schema ch.name hunk]

/-- Claim C7 witness: a footer naming column `"a"` against a schema whose
only field is `"z"`. -/
theorem c7_unknown_field_witness :
    (readFooter exFile7 = some [[exChunk]]
      ∧ exChunk.name ∉ exSchemaB.map SchemaField.name)
    ∧ newParquetReader exSchemaB exFile7 = .error (.unknownField exChunk.name) :=
  ⟨⟨by decide, by decide⟩,
    c7_unknown_field exSchemaB exFile7 exChunk [] [] (by decide) (by decide)⟩

/-- Claim C8: the bool packer emits `(N + 7) / 8` bytes, value `i` occupies
bit `i % 8` of byte `i / 8` LSB-first, every bit at an index at or beyond
`N` is 0, and 17 alternating values starting with true pack to
`0x55, 0x55, 0x01`. -/
theorem c8_bool_bitpack (vals : List Bool) :
    (boolPack vals).length = (vals.length + 7) / 8
    ∧ (∀ i, i < vals.length →
        ((boolPack vals).getD (i / 8) 0).testBit (i % 8) = vals.getD i false)
    ∧ (∀ i, vals.length ≤ i →
        ((boolPack vals).getD (i / 8) 0).testBit (i % 8) = false)
    ∧ boolPack [true, false, true, false, true, false, true, false, true,
        false, true, false, true, false, true, false, true] = [0x55, 0x55, 0x01] :=
  ⟨boolPack_length vals, fun i hi => boolPack_bit vals i hi,
    fun i hge => boolPack_trailing vals i hge, by decide⟩

/-- Claim C8 witness: bit 1 of byte 0 for a concrete 3-value column. -/
theorem c8_bool_bitpack_witness :
    1 < [true, true, false].length
    ∧ ((boolPack [true, true, false]).getD (1 / 8) 0).testBit (1 % 8)
        = [true, true, false].getD 1 false :=
  ⟨by decide, (c8_bool_bitpack [true, true, false]).2.1 1 (by decide)⟩

/-- Claim C9: the byte stream a writer produces — construction writing the
leading magic, records added, one flush, close writing the footer and the
trailing magic — begins and ends with the four ASCII bytes `PAR1`. -/
theorem c9_magic_framing (schema : List SchemaField) (P : Nat) (hP : 1 ≤ P)
    (R : List Rec) (hnd : (schema.map SchemaField.name).Nodup) :
    (writeFile schema P R).out.take 4 = magic
    ∧ (writeFile schema P R).out.drop ((writeFile schema P R).out.length - 4)
      = magic := by
  have hout : (writeFile schema P R).out
      = magic ++ (layoutBytes schema 0 (chunksP P R)
          ++ serFooter [flushedChunks schema 0 (chunksP P R), []]
          ++ leBytes 4 (serFooter [flushedChunks schema 0 (chunksP P R), []]).length
          ++ magic) := by
    rw [writeFile_spec schema hP R hnd]
    simp [List.append_assoc]
  have hout2 : (writeFile schema P R).out
      = (magic ++ layoutBytes schema 0 (chunksP P R)
          ++ serFooter [flushedChunks schema 0 (chunksP P R), []]
          ++ leBytes 4 (serFooter [flushedChunks schema 0 (chunksP P R), []]).length)
        ++ magic := by
    rw [writeFile_spec schema hP R hnd]
  exact ⟨take4_magic hout, drop4_magic hout2⟩

/-- Claim C9 witness: the framing at a concrete schema and records. -/
theorem c9_magic_framing_witness :
    (1 ≤ 2 ∧ (exSchemaA.map SchemaField.name).Nodup)
    ∧ ((writeFile exSchemaA 2 exRecsA).out.take 4 = magic
      ∧ (writeFile exSchemaA 2 exRecsA).out.drop
          ((writeFile exSchemaA 2 exRecsA).out.length - 4) = magic) :=
  ⟨⟨by decide, by decide⟩,
    c9_magic_framing exSchemaA 2 (by decide) exRecsA (by decide)⟩

/-- Claim C10: Scan against a field buffer whose value and definition-level
sequences are both empty returns the buffer and the record unchanged —
scanning past the buffered records is a no-op, not an error. -/
theorem c10_scan_empty_noop (sf : SchemaField) (j : Nat) (b : FieldBuf)
    (r : Rec) (hv : b.vals = []) (hd : b.defs = []) :
    fieldScan sf j b r = (b, r) := by
  cases hrep : sf.rep with
  | required => simp [fieldScan, hrep, hv]
  | optional => simp [fieldScan, hrep, hd]

/-- Claim C10 witness: scanning an empty optional buffer leaves a concrete
record untouched. -/
theorem c10_scan_empty_noop_witness :
    (emptyBuf.vals = [] ∧ emptyBuf.defs = [])
    ∧ fieldScan exOptField 0 emptyBuf [none] = (emptyBuf, [none]) :=
  ⟨⟨rfl, rfl⟩, c10_scan_empty_noop exOptField 0 emptyBuf [none] rfl rfl⟩

end ParquetGen
